import Mathlib

/-!
Shallow embedding of the Quoridor engine core (data model, move legality and
execution, A* pathfinding, move ordering, alpha-beta search) together with
theorems checking the specification's claims against it.

Sources embedded: src/data_model.rs, src/game_logic.rs, src/a_star.rs,
src/square_outline_iterator.rs, src/bot.rs.
-/

namespace Quoridor

/-! ## Data model (src/data_model.rs) -/

def PIECE_GRID_WIDTH : Nat := 9
def PIECE_GRID_HEIGHT : Nat := 9
def WALL_GRID_WIDTH : Nat := PIECE_GRID_WIDTH - 1
def WALL_GRID_HEIGHT : Nat := PIECE_GRID_HEIGHT - 1

inductive WallOrientation where
  | Horizontal
  | Vertical
deriving DecidableEq, Repr

structure PiecePosition where
  index : Nat
deriving DecidableEq, Repr

/-- `PiecePosition::new(x, y)` in the source. -/
def PiecePosition.make (x y : Nat) : PiecePosition :=
  ⟨y * PIECE_GRID_WIDTH + x⟩

def PiecePosition.x (p : PiecePosition) : Nat := p.index % PIECE_GRID_WIDTH

def PiecePosition.y (p : PiecePosition) : Nat := p.index / PIECE_GRID_WIDTH

/-- The two players; `bot.rs` calls them `A` and `B` (the same enum appears as
`White = 0` / `Black = 1` in `data_model.rs`, with `A`/`B` the names used by the
search code; `A` has index 0 and goal row 8, `B` has index 1 and goal row 0). -/
inductive Player where
  | A
  | B
deriving DecidableEq, Repr

def Player.opponent : Player → Player
  | .A => .B
  | .B => .A

def Player.asIndex : Player → Nat
  | .A => 0
  | .B => 1

inductive Direction where
  | Up
  | Down
  | Left
  | Right
deriving DecidableEq, Repr

/-- `Direction::iter()` (strum derive: declaration order). -/
def Direction.iterList : List Direction :=
  [.Up, .Down, .Left, .Right]

def Direction.to_offset : Direction → Int × Int
  | .Up => (0, -1)
  | .Down => (0, 1)
  | .Left => (-1, 0)
  | .Right => (1, 0)

structure MovePiece where
  direction : Direction
  direction_on_collision : Direction
deriving DecidableEq, Repr

/-- `MovePiece::iter()`: all 16 direction pairs, outer loop over `direction`. -/
def MovePiece.iterList : List MovePiece :=
  Direction.iterList.flatMap fun d =>
    Direction.iterList.map fun c => ⟨d, c⟩

structure WallPosition where
  x : Nat
  y : Nat
deriving DecidableEq, Repr

inductive PlayerMove where
  | PlaceWall (orientation : WallOrientation) (position : WallPosition)
  | MovePiece (movePiece : MovePiece)
deriving DecidableEq, Repr

/-- `Walls = [[Option<WallOrientation>; 8]; 8]`, indexed `walls[x][y]`;
modelled as a total function (queries outside `0..8` are guarded by
`wall_at`, mirroring the source's bounds checks). -/
def Walls := Nat → Nat → Option WallOrientation

structure Board where
  walls : Walls
  player_positions : Player → PiecePosition

structure Game where
  player : Player
  board : Board
  walls_left : Player → Nat

/-- `Board::new()`: empty walls, pieces at (4,0) and (4,8). -/
def Board.new : Board where
  walls := fun _ _ => none
  player_positions := fun p =>
    match p with
    | .A => PiecePosition.make 4 0
    | .B => PiecePosition.make 4 8

/-- `Board::wall_at`: false for any out-of-range coordinate, otherwise tests
whether the slot holds exactly the queried orientation. -/
def Board.wall_at (b : Board) (wall_orientation : WallOrientation)
    (wall_pos_x wall_pos_y : Int) : Bool :=
  0 ≤ wall_pos_x && 0 ≤ wall_pos_y &&
    wall_pos_x < (WALL_GRID_WIDTH : Int) && wall_pos_y < (WALL_GRID_HEIGHT : Int) &&
    (b.walls wall_pos_x.toNat wall_pos_y.toNat == some wall_orientation)

def Board.player_position (b : Board) (p : Player) : PiecePosition :=
  b.player_positions p

/-- `Game::new()`: player A to move, fresh board, 10 walls each. -/
def Game.new : Game where
  player := .A
  board := Board.new
  walls_left := fun _ => 10

/-! ## Move legality and execution (src/game_logic.rs) -/

/-- `new_position_after_direction_unchecked`: apply an offset (callers
guarantee the step is in bounds, so the `isize`/`usize` casts never wrap). -/
def new_position_after_direction_unchecked (player_position : PiecePosition)
    (direction : Direction) : PiecePosition :=
  let off := direction.to_offset
  PiecePosition.make ((player_position.x : Int) + off.1).toNat
    ((player_position.y : Int) + off.2).toNat

/-- `new_position_after_move_piece_unchecked`: straight step, or
jump-then-secondary-step when landing on the opponent. -/
def new_position_after_move_piece_unchecked (player_position : PiecePosition)
    (move_piece : MovePiece) (opponent_position : PiecePosition) : PiecePosition :=
  let new_position := new_position_after_direction_unchecked player_position move_piece.direction
  if opponent_position = new_position then
    new_position_after_direction_unchecked opponent_position move_piece.direction_on_collision
  else
    new_position

/-- `is_move_direction_legal_with_player_at_position`: the single-step edge
rule (bounds in the travelled axis and the two abutting wall slots). -/
def is_move_direction_legal_with_player_at_position (board : Board)
    (player_position : PiecePosition) (direction : Direction) : Bool :=
  match direction with
  | .Up =>
      decide (player_position.y > 0) &&
      !board.wall_at .Horizontal ((player_position.x : Int) - 1) ((player_position.y : Int) - 1) &&
      !board.wall_at .Horizontal (player_position.x : Int) ((player_position.y : Int) - 1)
  | .Down =>
      decide (player_position.y < PIECE_GRID_HEIGHT - 1) &&
      !board.wall_at .Horizontal ((player_position.x : Int) - 1) (player_position.y : Int) &&
      !board.wall_at .Horizontal (player_position.x : Int) (player_position.y : Int)
  | .Left =>
      decide (player_position.x > 0) &&
      !board.wall_at .Vertical ((player_position.x : Int) - 1) (player_position.y : Int) &&
      !board.wall_at .Vertical ((player_position.x : Int) - 1) ((player_position.y : Int) - 1)
  | .Right =>
      decide (player_position.x < PIECE_GRID_HEIGHT - 1) &&
      !board.wall_at .Vertical (player_position.x : Int) (player_position.y : Int) &&
      !board.wall_at .Vertical (player_position.x : Int) ((player_position.y : Int) - 1)

/-- `is_move_piece_legal_with_player_at_position`: primary step legal, and on a
collision with the opponent the secondary step must be legal from the
opponent's cell. -/
def is_move_piece_legal_with_player_at_position (board : Board) (player : Player)
    (player_position : PiecePosition) (move_piece : MovePiece) : Bool :=
  if is_move_direction_legal_with_player_at_position board player_position move_piece.direction then
    let new_position := new_position_after_direction_unchecked player_position move_piece.direction
    if new_position = board.player_position player.opponent then
      is_move_direction_legal_with_player_at_position board new_position
        move_piece.direction_on_collision
    else
      true
  else
    false

/-- `room_for_wall_placement`: no same-orientation wall on the three collinear
slots, no perpendicular wall in the slot itself, slot inside the wall grid. -/
def room_for_wall_placement (board : Board) (o : WallOrientation)
    (x y : Int) : Bool :=
  let offsets_to_check : List (Int × Int) :=
    match o with
    | .Horizontal => [(-1, 0), (0, 0), (1, 0)]
    | .Vertical => [(0, -1), (0, 0), (0, 1)]
  let other_orientation : WallOrientation :=
    match o with
    | .Horizontal => .Vertical
    | .Vertical => .Horizontal
  (offsets_to_check.all fun off => !board.wall_at o (x + off.1) (y + off.2)) &&
    !board.wall_at other_orientation x y &&
    decide (0 ≤ x) && decide (0 ≤ y) &&
    decide (x < (WALL_GRID_WIDTH : Int)) && decide (y < (WALL_GRID_HEIGHT : Int))

/-- `execute_move_unchecked`: apply the move (no legality check) and advance
the turn to the opponent. -/
def execute_move_unchecked (game : Game) (player : Player)
    (player_move : PlayerMove) : Game :=
  let game' :=
    match player_move with
    | .PlaceWall o pos =>
        { game with
          board :=
            { game.board with
              walls := fun wx wy =>
                if wx = pos.x ∧ wy = pos.y then some o else game.board.walls wx wy }
          walls_left := fun p => if p = player then game.walls_left p - 1 else game.walls_left p }
    | .MovePiece mp =>
        let new_position := new_position_after_move_piece_unchecked
          (game.board.player_position player) mp
          (game.board.player_position player.opponent)
        { game with
          board :=
            { game.board with
              player_positions := fun p =>
                if p = player then new_position else game.board.player_positions p } }
  { game' with player := player.opponent }

/-! ## Pathfinder (src/a_star.rs) -/

/-- `heuristic`: vertical distance to the player's goal row (row 8 for A,
row 0 for B). -/
def heuristic (pos : PiecePosition) (player : Player) : Nat :=
  match player with
  | .A => PIECE_GRID_HEIGHT - 1 - pos.y
  | .B => pos.y

/-- `neighbors`: destinations of all legal `MovePiece` actions from a cell
(the opponent position is read from the board and held fixed). -/
def neighbors (board : Board) (player : Player)
    (player_position : PiecePosition) : List PiecePosition :=
  MovePiece.iterList.filterMap fun mp =>
    if is_move_piece_legal_with_player_at_position board player player_position mp then
      some (new_position_after_move_piece_unchecked player_position mp
        (board.player_position player.opponent))
    else none

/-- Strict order used by `BinaryHeap<Reverse<(usize, PiecePosition)>>`:
lexicographic on the f-key and then the position index. -/
def heapKeyLt (a b : Nat × PiecePosition) : Bool :=
  a.1 < b.1 || (a.1 == b.1 && a.2.index < b.2.index)

def popMinGo (best : Nat × PiecePosition) (acc rest : List (Nat × PiecePosition)) :
    (Nat × PiecePosition) × List (Nat × PiecePosition) :=
  match rest with
  | [] => (best, acc)
  | e :: rest' =>
      if heapKeyLt e best then popMinGo e (best :: acc) rest'
      else popMinGo best (e :: acc) rest'

/-- Pop of the priority queue: removes one minimal `(f, position)` entry
(this is the element `BinaryHeap::pop` returns; entries compare by the full
pair, so equal keys denote identical entries and the choice is immaterial). -/
def popMin : List (Nat × PiecePosition) →
    Option ((Nat × PiecePosition) × List (Nat × PiecePosition))
  | [] => none
  | e :: rest => some (popMinGo e [] rest)

def RECONSTRUCT_FUEL : Nat := 100

/-- `reconstruct_path`: follow `came_from` links back to the start and return
the visited cells in start-to-goal order (the start cell excluded).  The fuel
bounds the walk; the source's map is acyclic so the bound is never met on the
states the program builds. -/
def reconstruct_path (came_from : PiecePosition → Option PiecePosition) :
    Nat → PiecePosition → List PiecePosition
  | 0, _ => []
  | fuel+1, current =>
      match came_from current with
      | none => []
      | some parent => reconstruct_path came_from fuel parent ++ [current]

/-- Mutable state of the A* search.  The source also keeps an `f_score` map,
but only ever writes it (the heap stores its own keys), so it is omitted. -/
structure AStarState where
  open_set : List (Nat × PiecePosition)
  came_from : PiecePosition → Option PiecePosition
  g_score : PiecePosition → Option Nat

def USIZE_MAX : Nat := 2 ^ 64 - 1

/-- One neighbor update of the A* inner loop: relax the edge when the
tentative g-score strictly improves (`unwrap_or(usize::MAX)` on a missing
entry). -/
def processNeighbor (player : Player) (current : PiecePosition) (g_current : Nat)
    (s : AStarState) (neighbor : PiecePosition) : AStarState :=
  let tentative := g_current + 1
  if tentative < (s.g_score neighbor).getD USIZE_MAX then
    { open_set := (tentative + heuristic neighbor player, neighbor) :: s.open_set
      came_from := fun q => if q = neighbor then some current else s.came_from q
      g_score := fun q => if q = neighbor then some tentative else s.g_score q }
  else s

def A_STAR_FUEL : Nat := 1000000

/-- The A* main loop.  Pops the minimal entry; a popped node on the goal row
returns the reconstructed path, otherwise all legal piece-move successors are
relaxed.  Fuel only bounds the iteration count (the source loop terminates
because every queue insertion strictly decreases some g-score). -/
def aStarLoop (board : Board) (player : Player) :
    Nat → AStarState → Option (List PiecePosition)
  | 0, _ => none
  | fuel+1, s =>
      match popMin s.open_set with
      | none => none
      | some ((_, current), rest) =>
          if heuristic current player == 0 then
            some (reconstruct_path s.came_from RECONSTRUCT_FUEL current)
          else
            let g_current := (s.g_score current).getD 0
            let s' := (neighbors board player current).foldl
              (processNeighbor player current g_current) { s with open_set := rest }
            aStarLoop board player fuel s'

/-- `a_star`: shortest-path search from the player's position to its goal row;
`none` when the open set empties without reaching the goal row. -/
def a_star (board : Board) (player : Player) : Option (List PiecePosition) :=
  let start := board.player_position player
  let h := heuristic start player
  aStarLoop board player A_STAR_FUEL
    { open_set := [(h, start)]
      came_from := fun _ => none
      g_score := fun q => if q = start then some 0 else none }

/-! ## Wall-move legality (src/game_logic.rs, continued)

`is_move_legal` lives in `game_logic.rs` but calls `a_star`, so it appears
here after the pathfinder. -/

/-- `is_move_legal_with_player_at_position`: piece moves delegate to the piece
rule; wall placements require a wall in hand, room in the grid, and that the
hypothetical post-placement board leaves both players a path. -/
def is_move_legal_with_player_at_position (game : Game) (player : Player)
    (player_position : PiecePosition) (player_move : PlayerMove) : Bool :=
  match player_move with
  | .MovePiece mp =>
      is_move_piece_legal_with_player_at_position game.board player player_position mp
  | .PlaceWall o pos =>
      let blocks_path := fun (player_to_block_check : Player) =>
        let game_copy := execute_move_unchecked game player (.PlaceWall o pos)
        (a_star game_copy.board player_to_block_check).isNone
      game.walls_left player > 0 &&
        room_for_wall_placement game.board o (pos.x : Int) (pos.y : Int) &&
        !blocks_path player && !blocks_path player.opponent

def is_move_legal (game : Game) (player : Player) (player_move : PlayerMove) : Bool :=
  is_move_legal_with_player_at_position game player
    (game.board.player_position player) player_move

/-! ## Square outline traversal (src/square_outline_iterator.rs) -/

/-- All items produced by `SquareOutlineIterator::new(tlx, tly, side)`. -/
def squareOutline (top_left_x top_left_y : Int) (side_length : Nat) :
    List (Int × Int) :=
  if side_length < 1 then []
  else
    let l := side_length - 1
    (List.range (4 * l)).map fun index =>
      let side_index := index / l
      let position_index := index % l
      let off : Nat × Nat :=
        match side_index with
        | 0 => (position_index, 0)
        | 1 => (l, position_index)
        | 2 => (l - position_index, l)
        | _ => (0, l - position_index)
      (top_left_x + (off.1 : Int), top_left_y + (off.2 : Int))

/-! ## Search engine (src/bot.rs) -/

def LOOSING_SCORE : Int := -(2 ^ 63) + 1

def WINNING_SCORE : Int := -LOOSING_SCORE

/-- `heuristic_board_score`.  `none` models the `unwrap()` panic on a missing
path: the opponent's (B's) path is unwrapped first, except that an opponent
distance of 0 returns `LOOSING_SCORE` before A's path is unwrapped.  The wall
term is weighted by the source's `wall_priority = 0`. -/
def heuristic_board_score (game : Game) : Option Int :=
  match a_star game.board .B with
  | none => none
  | some opponent_path =>
      let opponent_distance : Int := opponent_path.length
      if opponent_distance = 0 then some LOOSING_SCORE
      else
        match a_star game.board .A with
        | none => none
        | some player_path =>
            let player_distance : Int := player_path.length
            if player_distance = 0 then some WINNING_SCORE
            else
              let player_walls_left : Int := game.walls_left .A
              let opponent_walls_left : Int := game.walls_left .B
              let distance_score := opponent_distance - player_distance
              let wall_score := player_walls_left - opponent_walls_left
              some (1 * distance_score + 0 * wall_score)

/-- The closure `push_if_move_piece_is_legal` of
`moves_ordered_by_heuristic_quality`. -/
def push_if_move_piece_is_legal (game : Game) (player : Player)
    (moves : List PlayerMove) (direction direction_on_collision : Direction) :
    List PlayerMove :=
  let mp : MovePiece := ⟨direction, direction_on_collision⟩
  if is_move_piece_legal_with_player_at_position game.board player
      (game.board.player_position player) mp then
    moves ++ [PlayerMove.MovePiece mp]
  else moves

/-- The `match (x_diff, y_diff)` arm selecting the jump direction. -/
def jumpDirection (x_diff y_diff : Int) : Option Direction :=
  if x_diff = 0 ∧ y_diff = 1 then some .Down
  else if x_diff = 0 ∧ y_diff = -1 then some .Up
  else if x_diff = 1 ∧ y_diff = 0 then some .Right
  else if x_diff = -1 ∧ y_diff = 0 then some .Left
  else none

/-- The piece-move part of `moves_ordered_by_heuristic_quality`. -/
def orderedPieceMoves (game : Game) (player : Player) : List PlayerMove :=
  let player_position := game.board.player_position player
  let opponent_position := game.board.player_position player.opponent
  let x_diff : Int := (opponent_position.x : Int) - (player_position.x : Int)
  let y_diff : Int := (opponent_position.y : Int) - (player_position.y : Int)
  match jumpDirection x_diff y_diff with
  | some jump_direction =>
      let m1 := Direction.iterList.foldl
        (fun ms c => push_if_move_piece_is_legal game player ms jump_direction c) []
      (Direction.iterList.filter (fun d => d != jump_direction)).foldl
        (fun ms d => push_if_move_piece_is_legal game player ms d .Up) m1
  | none =>
      Direction.iterList.foldl
        (fun ms d => push_if_move_piece_is_legal game player ms d .Up) []

/-- One ring of candidate wall placements (the body of the `for i in 1..`
loop): walls at in-bounds outline slots that pass the walls-remaining and
`room_for_wall_placement` checks, plus the flag recording whether any outline
slot was in bounds. -/
def ringWallMoves (game : Game) (player : Player) (origin : PiecePosition)
    (i : Nat) : List PlayerMove × Bool :=
  let top_left_x : Int := (origin.x : Int) - (i : Int)
  let top_left_y : Int := (origin.y : Int) - (i : Int)
  let side_length := 2 * i
  (squareOutline top_left_x top_left_y side_length).foldl
    (fun acc xy =>
      let in_bounds := 0 ≤ xy.1 ∧ 0 ≤ xy.2 ∧
        xy.1 < (WALL_GRID_WIDTH : Int) ∧ xy.2 < (WALL_GRID_HEIGHT : Int)
      if in_bounds then
        let ms' := [WallOrientation.Horizontal, WallOrientation.Vertical].foldl
          (fun ms2 o =>
            if game.walls_left player > 0 ∧
                room_for_wall_placement game.board o xy.1 xy.2 then
              ms2 ++ [PlayerMove.PlaceWall o ⟨xy.1.toNat, xy.2.toNat⟩]
            else ms2) acc.1
        (ms', true)
      else acc)
    ([], false)

def RING_FUEL : Nat := 20

/-- The expanding-rings wall generation (`for i in 1..` with the
`some_in_bounds` break).  The fuel is never met: for an in-grid origin every
ring of index at least 9 lies wholly outside the wall grid, and for an
origin beyond the grid the very first ring does. -/
def wallRings (game : Game) (player : Player) (origin : PiecePosition) :
    Nat → Nat → List PlayerMove
  | _, 0 => []
  | i, fuel+1 =>
      let r := ringWallMoves game player origin i
      if r.2 then r.1 ++ wallRings game player origin (i+1) fuel
      else []

/-- `moves_ordered_by_heuristic_quality`: ordered piece moves followed by
wall placements in expanding rings around the opponent. -/
def moves_ordered_by_heuristic_quality (game : Game) (player : Player) :
    List PlayerMove :=
  orderedPieceMoves game player ++
    wallRings game player (game.board.player_position player.opponent) 1 RING_FUEL

/-- The dead-branch test of `alpha_beta`: some player has no path at all. -/
def deadBranch (b : Board) (player : Player) : Bool :=
  (a_star b player).isNone || (a_star b player.opponent).isNone

/-- The maximizing (`Player::A`) loop of `alpha_beta`, with the recursive call
abstracted.  `none` propagates a panic from a child evaluation. -/
def abLoopMax (recurse : Game → Int → Int → Option (Int × Option PlayerMove))
    (game : Game) (player : Player) :
    List PlayerMove → Int → Int → Int → Option PlayerMove →
    Option (Int × Option PlayerMove)
  | [], _, _, value, best => some (value, best)
  | m :: ms, alpha, beta, value, best =>
      let child := execute_move_unchecked game player m
      if deadBranch child.board player then
        abLoopMax recurse game player ms alpha beta value best
      else
        match recurse child alpha beta with
        | none => none
        | some (score, _) =>
            let best' := if score > value then some m else best
            let value' := max value score
            if value' ≥ beta then some (value', best')
            else abLoopMax recurse game player ms (max alpha value') beta value' best'

/-- The minimizing (`Player::B`) loop of `alpha_beta`. -/
def abLoopMin (recurse : Game → Int → Int → Option (Int × Option PlayerMove))
    (game : Game) (player : Player) :
    List PlayerMove → Int → Int → Int → Option PlayerMove →
    Option (Int × Option PlayerMove)
  | [], _, _, value, best => some (value, best)
  | m :: ms, alpha, beta, value, best =>
      let child := execute_move_unchecked game player m
      if deadBranch child.board player then
        abLoopMin recurse game player ms alpha beta value best
      else
        match recurse child alpha beta with
        | none => none
        | some (score, _) =>
            let best' := if score < value then some m else best
            let value' := min value score
            if value' ≤ alpha then some (value', best')
            else abLoopMin recurse game player ms alpha (min beta value') value' best'

/-- `alpha_beta`: depth-0 leaves evaluate statically; otherwise player A
maximizes and player B minimizes over the ordered candidate moves, skipping
dead branches, with standard alpha-beta cutoffs. -/
def alpha_beta : Nat → Game → Int → Int → Player → Option (Int × Option PlayerMove)
  | 0, game, _, _, _ => (heuristic_board_score game).map fun s => (s, none)
  | depth+1, game, alpha, beta, player =>
      match player with
      | .A => abLoopMax (fun g a b => alpha_beta depth g a b .B) game .A
          (moves_ordered_by_heuristic_quality game .A) alpha beta LOOSING_SCORE none
      | .B => abLoopMin (fun g a b => alpha_beta depth g a b .A) game .B
          (moves_ordered_by_heuristic_quality game .B) alpha beta WINNING_SCORE none

/-- `best_move_alpha_beta`: the root call with the full window. -/
def best_move_alpha_beta (game : Game) (player : Player) (depth : Nat) :
    Option (Int × Option PlayerMove) :=
  alpha_beta depth game LOOSING_SCORE WINNING_SCORE player

/-! ## Un-pruned minimax reference (for the alpha-beta equivalence claim)

Modelled from the spec's words: "the score from an un-pruned full minimax over
the same ordering" with "the same dead-branch skipping rule" — identical to
`alpha_beta` except that no alpha/beta bounds are kept and no sibling is ever
cut off. -/

def mmLoopMax (recurse : Game → Option Int) (game : Game) (player : Player) :
    List PlayerMove → Int → Option Int
  | [], value => some value
  | m :: ms, value =>
      let child := execute_move_unchecked game player m
      if deadBranch child.board player then mmLoopMax recurse game player ms value
      else
        match recurse child with
        | none => none
        | some score => mmLoopMax recurse game player ms (max value score)

def mmLoopMin (recurse : Game → Option Int) (game : Game) (player : Player) :
    List PlayerMove → Int → Option Int
  | [], value => some value
  | m :: ms, value =>
      let child := execute_move_unchecked game player m
      if deadBranch child.board player then mmLoopMin recurse game player ms value
      else
        match recurse child with
        | none => none
        | some score => mmLoopMin recurse game player ms (min value score)

def minimax : Nat → Game → Player → Option Int
  | 0, game, _ => heuristic_board_score game
  | depth+1, game, player =>
      match player with
      | .A => mmLoopMax (fun g => minimax depth g .B) game .A
          (moves_ordered_by_heuristic_quality game .A) LOOSING_SCORE
      | .B => mmLoopMin (fun g => minimax depth g .A) game .B
          (moves_ordered_by_heuristic_quality game .B) WINNING_SCORE

/-! ## Reference notions used to state claims -/

/-- One legal piece-move step: `next` is the destination of some legal
`MovePiece` from `cur` (the source's successor relation, as used by the
pathfinder). -/
def isStepOk (b : Board) (p : Player) (cur next : PiecePosition) : Bool :=
  (neighbors b p cur).contains next

/-- `pathSteps b p cur cells`: `cells` is a sequence of legal piece-moves
starting at `cur` and ending on `p`'s goal row. -/
def pathSteps (b : Board) (p : Player) : PiecePosition → List PiecePosition → Bool
  | cur, [] => heuristic cur p == 0
  | cur, q :: rest => isStepOk b p cur q && pathSteps b p q rest

/-- The win/loss sentinel from the perspective of the given search root:
player A maximizes, so A's worst score is `LOOSING_SCORE`; B minimizes, so
B's worst score is `WINNING_SCORE`. -/
def sentinelScore : Player → Int
  | .A => LOOSING_SCORE
  | .B => WINNING_SCORE

/-- The wall orientation perpendicular to a direction of travel: vertical
movement is blocked by horizontal walls and vice versa. -/
def perpendicularOrientation : Direction → WallOrientation
  | .Up => .Horizontal
  | .Down => .Horizontal
  | .Left => .Vertical
  | .Right => .Vertical

/-- The two wall-slots abutting the edge crossed by a step from `pos` in
direction `d` (one on each side of the edge). -/
def crossedEdgeSlots (pos : PiecePosition) : Direction → List (Int × Int)
  | .Up => [((pos.x : Int) - 1, (pos.y : Int) - 1), ((pos.x : Int), (pos.y : Int) - 1)]
  | .Down => [((pos.x : Int) - 1, (pos.y : Int)), ((pos.x : Int), (pos.y : Int))]
  | .Left => [((pos.x : Int) - 1, (pos.y : Int)), ((pos.x : Int) - 1, (pos.y : Int) - 1)]
  | .Right => [((pos.x : Int), (pos.y : Int)), ((pos.x : Int), (pos.y : Int) - 1)]

/-- The step's destination stays on the grid along the travelled axis. -/
def destInBounds (pos : PiecePosition) : Direction → Prop
  | .Up => 0 < pos.y
  | .Down => pos.y < PIECE_GRID_HEIGHT - 1
  | .Left => 0 < pos.x
  | .Right => pos.x < PIECE_GRID_HEIGHT - 1

/-- The claim's single-step rule: in-bounds destination, and neither of the
two slots that guard the crossed edge holds a wall perpendicular to the
direction of travel. -/
def stepLegalSpec (b : Board) (pos : PiecePosition) (d : Direction) : Prop :=
  destInBounds pos d ∧
    ∀ s ∈ crossedEdgeSlots pos d, b.wall_at (perpendicularOrientation d) s.1 s.2 = false

def perpendicularWall : WallOrientation → WallOrientation
  | .Horizontal => .Vertical
  | .Vertical => .Horizontal

/-- The three collinear slots along a wall's length: the slot itself and its
immediate neighbor on each side. -/
def collinearSlots (o : WallOrientation) (wp : WallPosition) : List (Int × Int) :=
  match o with
  | .Horizontal =>
      [((wp.x : Int) - 1, (wp.y : Int)), ((wp.x : Int), (wp.y : Int)),
       ((wp.x : Int) + 1, (wp.y : Int))]
  | .Vertical =>
      [((wp.x : Int), (wp.y : Int) - 1), ((wp.x : Int), (wp.y : Int)),
       ((wp.x : Int), (wp.y : Int) + 1)]

/-- The hypothetical post-placement board of the claim: only the wall grid
changes, by filling the one slot. -/
def placeWall (b : Board) (o : WallOrientation) (wp : WallPosition) : Board :=
  { b with walls := fun wx wy => if wx = wp.x ∧ wy = wp.y then some o else b.walls wx wy }

/-- The moves appended by one `push_if_move_piece_is_legal` call. -/
def pushedMoves (game : Game) (player : Player) (d c : Direction) : List PlayerMove :=
  if is_move_piece_legal_with_player_at_position game.board player
      (game.board.player_position player) ⟨d, c⟩ then
    [PlayerMove.MovePiece ⟨d, c⟩]
  else []

/-- In-bounds test for a wall slot given as signed coordinates. -/
def inBoundsSlot (xy : Int × Int) : Prop :=
  0 ≤ xy.1 ∧ 0 ≤ xy.2 ∧ xy.1 < (WALL_GRID_WIDTH : Int) ∧ xy.2 < (WALL_GRID_HEIGHT : Int)

instance : DecidablePred inBoundsSlot := fun xy => by
  unfold inBoundsSlot; infer_instance

/-- The candidate wall moves generated at one ring slot (both orientations,
filtered by the walls-remaining and room checks). -/
def wallMovesAt (game : Game) (player : Player) (xy : Int × Int) : List PlayerMove :=
  [WallOrientation.Horizontal, WallOrientation.Vertical].foldl
    (fun ms2 o =>
      if game.walls_left player > 0 ∧
          room_for_wall_placement game.board o xy.1 xy.2 then
        ms2 ++ [PlayerMove.PlaceWall o ⟨xy.1.toNat, xy.2.toNat⟩]
      else ms2) []

/-- Index of the expanding ring around `origin` on whose outline a cell
lies. -/
def chebRingXY (origin : PiecePosition) (xy : Int × Int) : Int :=
  max (max ((origin.x : Int) - xy.1) (xy.1 - (origin.x : Int) + 1))
      (max ((origin.y : Int) - xy.2) (xy.2 - (origin.y : Int) + 1))

/-! ## Concrete instances used by counterexamples and witnesses -/

def wallsOf (ws : List (Nat × Nat × WallOrientation)) : Walls :=
  fun x y => (ws.find? (fun w => w.1 = x ∧ w.2.1 = y)).map (fun w => w.2.2)

def boardOf (ws : List (Nat × Nat × WallOrientation)) (pa pb : PiecePosition) :
    Board where
  walls := wallsOf ws
  player_positions := fun p =>
    match p with
    | .A => pa
    | .B => pb

/-- Four legally placeable walls; A at (8,2), B at (5,5).  Player B's true
distance to row 0 is 7 (via a straight jump over A), but the returned path
has length 8. -/
def c1Board : Board :=
  boardOf [(5, 4, .Horizontal), (4, 3, .Horizontal), (3, 1, .Horizontal), (6, 3, .Horizontal)]
    (PiecePosition.make 8 2) (PiecePosition.make 5 5)

/-- A 7-step legal route for B on `c1Board`:
(6,5),(7,5),(7,4),(8,4),(8,3), straight jump over A to (8,1), then (8,0). -/
def c1ShortPath : List PiecePosition :=
  [PiecePosition.make 6 5, PiecePosition.make 7 5, PiecePosition.make 7 4,
   PiecePosition.make 8 4, PiecePosition.make 8 3, PiecePosition.make 8 1,
   PiecePosition.make 8 0]

/-- The straight-line path the spec's scenario claims for C9. -/
def c9ClaimedPath : List PiecePosition :=
  [PiecePosition.make 4 1, PiecePosition.make 4 2, PiecePosition.make 4 3,
   PiecePosition.make 4 4, PiecePosition.make 4 5, PiecePosition.make 4 6,
   PiecePosition.make 4 7, PiecePosition.make 4 8]

/-- The path actually returned on the fresh board: straight down column 4 and
a diagonal jump over the opponent on (4,8) into (3,8). -/
def c9ActualPath : List PiecePosition :=
  [PiecePosition.make 4 1, PiecePosition.make 4 2, PiecePosition.make 4 3,
   PiecePosition.make 4 4, PiecePosition.make 4 5, PiecePosition.make 4 6,
   PiecePosition.make 4 7, PiecePosition.make 3 8]

/-- Both players one move from goal (A at (4,7), B at (8,1)), unequal wall
counts (3 vs 0), A to move. -/
def c2Game : Game where
  player := .A
  board := boardOf [] (PiecePosition.make 4 7) (PiecePosition.make 8 1)
  walls_left := fun p =>
    match p with
    | .A => 3
    | .B => 0

/-- B already stands on its goal row (8,0); A at (4,7); no walls in hand.
Every child of every legal move of A evaluates to `LOOSING_SCORE`, so the
depth-1 search reports no best move although legal non-dead-end moves exist. -/
def c7Game : Game where
  player := .A
  board := boardOf [] (PiecePosition.make 4 7) (PiecePosition.make 8 0)
  walls_left := fun _ => 0

/-! ## Theorems -/

/-- C9 (counterexample): on the fresh board the pathfinder does not return
the straight path `(4,1)..(4,8)` of length 9: the opponent occupies (4,8), so
the actual result ends with a jump to (3,8) and has length 8. -/
theorem c9_counterexample :
    a_star Board.new Player.A = some c9ActualPath ∧
    c9ActualPath ≠ c9ClaimedPath ∧
    c9ActualPath.length ≠ 9 := by
  refine ⟨by decide, by decide, by decide⟩

/-- C9 (amended): on the fresh board, `a_star` for the starting player
returns exactly `(4,1),(4,2),...,(4,7),(3,8)`, of length 8: the straight
route is cut short by the opponent on (4,8) and resolved by a diagonal jump. -/
theorem c9_amended_path :
    a_star Board.new Player.A = some c9ActualPath ∧ c9ActualPath.length = 8 := by
  refine ⟨by decide, by decide⟩

/-- C1 (code evaluated at the failing input): on `c1Board` the pathfinder
returns a path of length 8 for player B although a legal 7-step route to B's
goal row exists, so the returned length is not the true minimum. -/
theorem c1_code_divergence :
    (a_star c1Board Player.B).map List.length = some 8 ∧
    pathSteps c1Board Player.B (c1Board.player_position Player.B) c1ShortPath = true ∧
    c1ShortPath.length = 7 := by
  refine ⟨by decide, by decide, by decide⟩

/-- C2 (counterexample): on `c2Game` both path lengths are 1 and the wall
counts are 3 and 0, so the claimed value is `1 - 1 + 3 - 0 = 3`, but the
evaluation returns 0: the wall term is multiplied by the source's
`wall_priority = 0`. -/
theorem c2_counterexample :
    heuristic_board_score c2Game = some 0 ∧
    c2Game.player = Player.A ∧
    (a_star c2Game.board Player.B).map List.length = some 1 ∧
    (a_star c2Game.board Player.A).map List.length = some 1 ∧
    c2Game.walls_left Player.A = 3 ∧
    c2Game.walls_left Player.B = 0 ∧
    (0 : Int) ≠ 1 - 1 + (3 - 0) := by
  refine ⟨by decide, by decide, by decide, by decide, by decide, by decide, by decide⟩

/-- C5 (counterexample): on the fresh game the piece move `(Down, Down)` is
legal for A, yet it does not appear in the ordered move list (only the
`(·, Up)` collision variant of each non-jump direction is generated). -/
theorem c5_counterexample :
    is_move_legal Game.new Player.A (.MovePiece ⟨.Down, .Down⟩) = true ∧
    (PlayerMove.MovePiece ⟨.Down, .Down⟩) ∉
      moves_ordered_by_heuristic_quality Game.new Player.A := by
  refine ⟨by decide, by decide⟩

/-- C7 (counterexample): on `c7Game` (B already on its goal row) the legal
move `(Down, Up)` of A leads to a child in which both players still have a
path, yet the depth-1 search returns no best move: every viable child scores
exactly `LOOSING_SCORE`, and the maximizer only records a move on a strict
improvement. -/
theorem c7_counterexample :
    best_move_alpha_beta c7Game Player.A 1 = some (LOOSING_SCORE, none) ∧
    is_move_legal c7Game Player.A (.MovePiece ⟨.Down, .Up⟩) = true ∧
    (a_star (execute_move_unchecked c7Game Player.A
      (.MovePiece ⟨.Down, .Up⟩)).board Player.A).isSome = true ∧
    (a_star (execute_move_unchecked c7Game Player.A
      (.MovePiece ⟨.Down, .Up⟩)).board Player.B).isSome = true := by
  refine ⟨by decide, by decide, by decide, by decide⟩

theorem stepLegal_iff (b : Board) (pos : PiecePosition) (d : Direction) :
    is_move_direction_legal_with_player_at_position b pos d = true ↔
      stepLegalSpec b pos d := by
  cases d <;>
    simp [is_move_direction_legal_with_player_at_position, stepLegalSpec,
      destInBounds, crossedEdgeSlots, perpendicularOrientation, and_assoc]

/-- C6: the piece-move legality predicate holds iff the primary step is
in bounds with its crossed edge unblocked, and, when the primary destination
is the opponent's cell, the secondary step from the opponent's cell satisfies
the same rule. -/
theorem c6_piece_move_legality (b : Board) (p : Player) (pos : PiecePosition)
    (mp : MovePiece) :
    is_move_piece_legal_with_player_at_position b p pos mp = true ↔
      (stepLegalSpec b pos mp.direction ∧
        (new_position_after_direction_unchecked pos mp.direction =
            b.player_position p.opponent →
          stepLegalSpec b (b.player_position p.opponent)
            mp.direction_on_collision)) := by
  unfold is_move_piece_legal_with_player_at_position
  by_cases h1 : is_move_direction_legal_with_player_at_position b pos mp.direction = true
  · rw [if_pos h1]
    by_cases h2 : new_position_after_direction_unchecked pos mp.direction =
        b.player_position p.opponent
    · rw [if_pos h2]
      conv_lhs => rw [h2]
      rw [stepLegal_iff]
      exact ⟨fun hs => ⟨(stepLegal_iff b pos mp.direction).mp h1, fun _ => hs⟩,
        fun h => h.2 h2⟩
    · rw [if_neg h2]
      simp only [true_iff]
      exact ⟨(stepLegal_iff b pos mp.direction).mp h1, fun hc => absurd hc h2⟩
  · rw [if_neg h1]
    rw [stepLegal_iff] at h1
    simp [h1]

theorem isNone_false_iff_isSome {α : Type} (o : Option α) :
    o.isNone = false ↔ o.isSome = true := by
  cases o <;> simp

/-- The board built by executing a wall placement is the claim's hypothetical
post-placement board. -/
theorem execute_place_wall_board (game : Game) (player : Player)
    (o : WallOrientation) (wp : WallPosition) :
    (execute_move_unchecked game player (.PlaceWall o wp)).board =
      placeWall game.board o wp := rfl

theorem wall_at_inb (b : Board) (o : WallOrientation) (x y : Nat)
    (hx : x < WALL_GRID_WIDTH) (hy : y < WALL_GRID_HEIGHT) :
    b.wall_at o (x : Int) (y : Int) = (b.walls x y == some o) := by
  simp [Board.wall_at, Int.toNat_natCast, Int.natCast_nonneg, Nat.cast_lt, hx, hy]

theorem room_iff (b : Board) (o : WallOrientation) (wp : WallPosition) :
    room_for_wall_placement b o (wp.x : Int) (wp.y : Int) = true ↔
      (wp.x < WALL_GRID_WIDTH ∧ wp.y < WALL_GRID_HEIGHT ∧
       b.walls wp.x wp.y ≠ some (perpendicularWall o) ∧
       ∀ s ∈ collinearSlots o wp, b.wall_at o s.1 s.2 = false) := by
  cases o <;>
  · simp only [room_for_wall_placement, collinearSlots, perpendicularWall,
      List.all_cons, List.all_nil, Bool.and_eq_true, Bool.not_eq_true',
      decide_eq_true_eq, List.forall_mem_cons, List.forall_mem_nil, and_true,
      sub_eq_add_neg, add_zero]
    constructor
    · rintro ⟨⟨⟨⟨⟨h3, hperp⟩, hx0⟩, hy0⟩, hx8⟩, hy8⟩
      have hx : wp.x < WALL_GRID_WIDTH := by exact_mod_cast hx8
      have hy : wp.y < WALL_GRID_HEIGHT := by exact_mod_cast hy8
      rw [wall_at_inb b _ wp.x wp.y hx hy] at hperp
      exact ⟨hx, hy, by simpa using hperp, h3.1, h3.2.1, h3.2.2, by simp⟩
    · rintro ⟨hx, hy, hperp, h1, h2, h3, -⟩
      refine ⟨⟨⟨⟨⟨⟨h1, h2, h3⟩, ?_⟩, by positivity⟩, by positivity⟩, by exact_mod_cast hx⟩,
        by exact_mod_cast hy⟩
      rw [wall_at_inb b _ wp.x wp.y hx hy]
      simpa using hperp

/-- C4: a wall placement is accepted iff the mover has a wall in hand, the
slot is inside the 8×8 wall grid, the slot does not hold the perpendicular
orientation, none of the three collinear slots holds the same orientation,
and on the post-placement board both players still have a path. -/
theorem c4_wall_legality (game : Game) (player : Player) (pos : PiecePosition)
    (o : WallOrientation) (wp : WallPosition) :
    is_move_legal_with_player_at_position game player pos (.PlaceWall o wp) = true ↔
      (1 ≤ game.walls_left player ∧
       wp.x < WALL_GRID_WIDTH ∧ wp.y < WALL_GRID_HEIGHT ∧
       game.board.walls wp.x wp.y ≠ some (perpendicularWall o) ∧
       (∀ s ∈ collinearSlots o wp, game.board.wall_at o s.1 s.2 = false) ∧
       (a_star (placeWall game.board o wp) Player.A).isSome = true ∧
       (a_star (placeWall game.board o wp) Player.B).isSome = true) := by
  show (_ && _ && _ && _) = true ↔ _
  simp only [Bool.and_eq_true, decide_eq_true_eq, execute_place_wall_board,
    Bool.not_eq_true', isNone_false_iff_isSome, room_iff]
  cases player
  · constructor
    · rintro ⟨⟨⟨hw, r1, r2, r3, r4⟩, hp1⟩, hp2⟩
      exact ⟨by omega, r1, r2, r3, r4, hp1, hp2⟩
    · rintro ⟨hw, r1, r2, r3, r4, hA, hB⟩
      exact ⟨⟨⟨by omega, r1, r2, r3, r4⟩, hA⟩, hB⟩
  · constructor
    · rintro ⟨⟨⟨hw, r1, r2, r3, r4⟩, hp1⟩, hp2⟩
      exact ⟨by omega, r1, r2, r3, r4, hp2, hp1⟩
    · rintro ⟨hw, r1, r2, r3, r4, hA, hB⟩
      exact ⟨⟨⟨by omega, r1, r2, r3, r4⟩, hB⟩, hA⟩

theorem step_ne_self (b : Board) (q : PiecePosition) (d : Direction)
    (h : is_move_direction_legal_with_player_at_position b q d = true) :
    new_position_after_direction_unchecked q d ≠ q := by
  have hb := ((stepLegal_iff b q d).mp h).1
  have hx : q.x = q.index % 9 := rfl
  have hy : q.y = q.index / 9 := rfl
  intro heq
  have hidx := congrArg PiecePosition.index heq
  cases d with
  | Up =>
      simp only [destInBounds] at hb
      have h1 : ((q.x : Int) + 0).toNat = q.x := by omega
      have h2 : ((q.y : Int) + -1).toNat = q.y - 1 := by omega
      simp only [new_position_after_direction_unchecked, Direction.to_offset,
        PiecePosition.make, PIECE_GRID_WIDTH, h1, h2] at hidx
      omega
  | Down =>
      simp only [destInBounds, PIECE_GRID_HEIGHT] at hb
      have h1 : ((q.x : Int) + 0).toNat = q.x := by omega
      have h2 : ((q.y : Int) + 1).toNat = q.y + 1 := by omega
      simp only [new_position_after_direction_unchecked, Direction.to_offset,
        PiecePosition.make, PIECE_GRID_WIDTH, h1, h2] at hidx
      omega
  | Left =>
      simp only [destInBounds] at hb
      have h1 : ((q.x : Int) + -1).toNat = q.x - 1 := by omega
      have h2 : ((q.y : Int) + 0).toNat = q.y := by omega
      simp only [new_position_after_direction_unchecked, Direction.to_offset,
        PiecePosition.make, PIECE_GRID_WIDTH, h1, h2] at hidx
      omega
  | Right =>
      simp only [destInBounds, PIECE_GRID_HEIGHT] at hb
      have h1 : ((q.x : Int) + 1).toNat = q.x + 1 := by omega
      have h2 : ((q.y : Int) + 0).toNat = q.y := by omega
      simp only [new_position_after_direction_unchecked, Direction.to_offset,
        PiecePosition.make, PIECE_GRID_WIDTH, h1, h2] at hidx
      omega

/-- The position obtained by applying a legal piece move never lands on the
opponent's cell: a colliding primary step resolves to the secondary step away
from the opponent. -/
theorem new_position_ne_opponent (b : Board) (p : Player) (pos : PiecePosition)
    (mp : MovePiece)
    (h : is_move_piece_legal_with_player_at_position b p pos mp = true) :
    new_position_after_move_piece_unchecked pos mp (b.player_position p.opponent) ≠
      b.player_position p.opponent := by
  unfold is_move_piece_legal_with_player_at_position at h
  by_cases h1 : is_move_direction_legal_with_player_at_position b pos mp.direction = true
  · rw [if_pos h1] at h
    unfold new_position_after_move_piece_unchecked
    by_cases h2 : new_position_after_direction_unchecked pos mp.direction =
        b.player_position p.opponent
    · rw [if_pos h2] at h
      rw [h2] at h
      rw [if_pos h2.symm]
      exact step_ne_self b _ _ h
    · rw [if_neg (fun heq => h2 heq.symm)]
      exact h2
  · rw [if_neg h1] at h
    exact absurd h (by simp)

/-- C8: executing any legal move from a state with distinct piece positions
yields a state with distinct piece positions. -/
theorem c8_positions_distinct (game : Game) (player : Player) (mv : PlayerMove)
    (hne : game.board.player_position Player.A ≠ game.board.player_position Player.B)
    (hlegal : is_move_legal game player mv = true) :
    (execute_move_unchecked game player mv).board.player_position Player.A ≠
      (execute_move_unchecked game player mv).board.player_position Player.B := by
  cases mv with
  | PlaceWall o wp => exact hne
  | MovePiece mp =>
      have hkey := new_position_ne_opponent game.board player
        (game.board.player_position player) mp hlegal
      cases player
      · have eA : (execute_move_unchecked game Player.A
            (.MovePiece mp)).board.player_position Player.A =
            new_position_after_move_piece_unchecked
              (game.board.player_position Player.A) mp
              (game.board.player_position Player.A.opponent) := rfl
        have eB : (execute_move_unchecked game Player.A
            (.MovePiece mp)).board.player_position Player.B =
            game.board.player_position Player.B := rfl
        rw [eA, eB]
        exact hkey
      · have eA : (execute_move_unchecked game Player.B
            (.MovePiece mp)).board.player_position Player.A =
            game.board.player_position Player.A := rfl
        have eB : (execute_move_unchecked game Player.B
            (.MovePiece mp)).board.player_position Player.B =
            new_position_after_move_piece_unchecked
              (game.board.player_position Player.B) mp
              (game.board.player_position Player.B.opponent) := rfl
        rw [eA, eB]
        exact fun heq => hkey heq.symm

/-- Witness for C8 at a concrete input: the fresh game and the legal move
`(Down, Up)`. -/
theorem c8_positions_distinct_witness :
    (Game.new.board.player_position Player.A ≠ Game.new.board.player_position Player.B) ∧
    is_move_legal Game.new Player.A (.MovePiece ⟨.Down, .Up⟩) = true ∧
    ((execute_move_unchecked Game.new Player.A
        (.MovePiece ⟨.Down, .Up⟩)).board.player_position Player.A ≠
      (execute_move_unchecked Game.new Player.A
        (.MovePiece ⟨.Down, .Up⟩)).board.player_position Player.B) :=
  ⟨by decide, by decide,
    c8_positions_distinct Game.new Player.A _ (by decide) (by decide)⟩

/-! ### Totality and bounds of the search -/

theorem reconstruct_path_length_le (cf : PiecePosition → Option PiecePosition) :
    ∀ (fuel : Nat) (cur : PiecePosition),
      (reconstruct_path cf fuel cur).length ≤ fuel := by
  intro fuel
  induction fuel with
  | zero => intro cur; simp [reconstruct_path]
  | succ n ih =>
      intro cur
      unfold reconstruct_path
      cases cf cur with
      | none => simp
      | some parent => simpa using Nat.add_le_add_right (ih parent) 1

theorem aStarLoop_length_le (board : Board) (p : Player) :
    ∀ (fuel : Nat) (s : AStarState) (l : List PiecePosition),
      aStarLoop board p fuel s = some l → l.length ≤ RECONSTRUCT_FUEL := by
  intro fuel
  induction fuel with
  | zero => intro s l h; exact absurd h (by simp [aStarLoop])
  | succ n ih =>
      intro s l h
      unfold aStarLoop at h
      cases hpop : popMin s.open_set with
      | none => rw [hpop] at h; exact absurd h (by simp)
      | some pr =>
          obtain ⟨⟨f, current⟩, rest⟩ := pr
          rw [hpop] at h
          simp only at h
          by_cases hg : (heuristic current p == 0) = true
          · rw [if_pos hg] at h
            cases h
            exact reconstruct_path_length_le _ _ _
          · rw [if_neg hg] at h
            exact ih _ l h

theorem a_star_length_le (b : Board) (p : Player) (l : List PiecePosition)
    (h : a_star b p = some l) : l.length ≤ RECONSTRUCT_FUEL := by
  unfold a_star at h
  exact aStarLoop_length_le b p A_STAR_FUEL _ l h

theorem LOOSING_lt_WINNING : LOOSING_SCORE < WINNING_SCORE := by decide

theorem heuristic_score_bounds (g : Game) (v : Int)
    (h : heuristic_board_score g = some v) :
    LOOSING_SCORE ≤ v ∧ v ≤ WINNING_SCORE := by
  unfold heuristic_board_score at h
  cases hB : a_star g.board Player.B with
  | none => rw [hB] at h; exact absurd h (by simp)
  | some op =>
      rw [hB] at h
      simp only at h
      have hopb : op.length ≤ RECONSTRUCT_FUEL := a_star_length_le _ _ _ hB
      by_cases h0 : (op.length : Int) = 0
      · rw [if_pos h0] at h
        cases h
        exact ⟨le_refl _, le_of_lt LOOSING_lt_WINNING⟩
      · rw [if_neg h0] at h
        cases hA : a_star g.board Player.A with
        | none => rw [hA] at h; exact absurd h (by simp)
        | some pp =>
            rw [hA] at h
            simp only at h
            have hppb : pp.length ≤ RECONSTRUCT_FUEL := a_star_length_le _ _ _ hA
            by_cases h1 : (pp.length : Int) = 0
            · rw [if_pos h1] at h
              cases h
              exact ⟨le_of_lt LOOSING_lt_WINNING, le_refl _⟩
            · rw [if_neg h1] at h
              cases h
              simp only [LOOSING_SCORE, WINNING_SCORE, RECONSTRUCT_FUEL] at hopb hppb ⊢
              omega

theorem heuristic_some_of_paths (g : Game)
    (hA : (a_star g.board Player.A).isSome = true)
    (hB : (a_star g.board Player.B).isSome = true) :
    (heuristic_board_score g).isSome = true := by
  obtain ⟨op, hop⟩ := Option.isSome_iff_exists.mp hB
  obtain ⟨pp, hpp⟩ := Option.isSome_iff_exists.mp hA
  unfold heuristic_board_score
  rw [hop, hpp]
  simp only
  by_cases h0 : (op.length : Int) = 0
  · rw [if_pos h0]; rfl
  · rw [if_neg h0]
    by_cases h1 : (pp.length : Int) = 0
    · rw [if_pos h1]; rfl
    · rw [if_neg h1]; rfl

theorem bothPaths_of_not_dead (b : Board) (p : Player)
    (h : deadBranch b p = false) :
    (a_star b Player.A).isSome = true ∧ (a_star b Player.B).isSome = true := by
  unfold deadBranch at h
  rw [Bool.or_eq_false_iff] at h
  obtain ⟨h1, h2⟩ := h
  rw [Option.isNone_eq_false_iff] at h1 h2
  cases p
  · exact ⟨h1, h2⟩
  · exact ⟨h2, h1⟩

theorem abLoopMax_isSome (recurse : Game → Int → Int → Option (Int × Option PlayerMove))
    (game : Game) (player : Player)
    (hrec : ∀ g a b, (a_star g.board Player.A).isSome = true →
      (a_star g.board Player.B).isSome = true → (recurse g a b).isSome = true) :
    ∀ (ms : List PlayerMove) (alpha beta value : Int) (best : Option PlayerMove),
      (abLoopMax recurse game player ms alpha beta value best).isSome = true := by
  intro ms
  induction ms with
  | nil => intros; simp [abLoopMax]
  | cons m ms ih =>
      intro alpha beta value best
      unfold abLoopMax
      by_cases hdead : deadBranch (execute_move_unchecked game player m).board player = true
      · simp only [hdead, if_true]
        exact ih alpha beta value best
      · have hdead2 : deadBranch (execute_move_unchecked game player m).board player = false := by
          simpa using hdead
        obtain ⟨hA, hB⟩ := bothPaths_of_not_dead _ _ hdead2
        obtain ⟨⟨s, sm⟩, hs⟩ := Option.isSome_iff_exists.mp (hrec _ alpha beta hA hB)
        simp only [hdead2, Bool.false_eq_true, if_false, hs]
        split
        · rfl
        · exact ih _ _ _ _

theorem abLoopMin_isSome (recurse : Game → Int → Int → Option (Int × Option PlayerMove))
    (game : Game) (player : Player)
    (hrec : ∀ g a b, (a_star g.board Player.A).isSome = true →
      (a_star g.board Player.B).isSome = true → (recurse g a b).isSome = true) :
    ∀ (ms : List PlayerMove) (alpha beta value : Int) (best : Option PlayerMove),
      (abLoopMin recurse game player ms alpha beta value best).isSome = true := by
  intro ms
  induction ms with
  | nil => intros; simp [abLoopMin]
  | cons m ms ih =>
      intro alpha beta value best
      unfold abLoopMin
      by_cases hdead : deadBranch (execute_move_unchecked game player m).board player = true
      · simp only [hdead, if_true]
        exact ih alpha beta value best
      · have hdead2 : deadBranch (execute_move_unchecked game player m).board player = false := by
          simpa using hdead
        obtain ⟨hA, hB⟩ := bothPaths_of_not_dead _ _ hdead2
        obtain ⟨⟨s, sm⟩, hs⟩ := Option.isSome_iff_exists.mp (hrec _ alpha beta hA hB)
        simp only [hdead2, Bool.false_eq_true, if_false, hs]
        split
        · rfl
        · exact ih _ _ _ _

theorem alpha_beta_isSome (d : Nat) :
    ∀ (g : Game) (alpha beta : Int) (p : Player),
      (a_star g.board Player.A).isSome = true →
      (a_star g.board Player.B).isSome = true →
      (alpha_beta d g alpha beta p).isSome = true := by
  induction d with
  | zero =>
      intro g a b p hA hB
      unfold alpha_beta
      have hsome := heuristic_some_of_paths g hA hB
      cases h : heuristic_board_score g with
      | none => rw [h] at hsome; exact absurd hsome (by simp)
      | some v => rfl
  | succ n ih =>
      intro g a b p hA hB
      unfold alpha_beta
      cases p
      · exact abLoopMax_isSome _ g .A (fun g' a' b' hA' hB' => ih g' a' b' .B hA' hB')
          _ a b LOOSING_SCORE none
      · exact abLoopMin_isSome _ g .B (fun g' a' b' hA' hB' => ih g' a' b' .A hA' hB')
          _ a b WINNING_SCORE none

theorem alpha_beta_succ_isSome (d : Nat) (g : Game) (alpha beta : Int) (p : Player) :
    (alpha_beta (d+1) g alpha beta p).isSome = true := by
  unfold alpha_beta
  cases p
  · exact abLoopMax_isSome _ g .A
      (fun g' a' b' hA' hB' => alpha_beta_isSome d g' a' b' .B hA' hB') _ alpha beta _ none
  · exact abLoopMin_isSome _ g .B
      (fun g' a' b' hA' hB' => alpha_beta_isSome d g' a' b' .A hA' hB') _ alpha beta _ none

theorem mmLoopMax_isSome (recurse : Game → Option Int) (game : Game) (player : Player)
    (hrec : ∀ g, (a_star g.board Player.A).isSome = true →
      (a_star g.board Player.B).isSome = true → (recurse g).isSome = true) :
    ∀ (ms : List PlayerMove) (value : Int),
      (mmLoopMax recurse game player ms value).isSome = true := by
  intro ms
  induction ms with
  | nil => intros; simp [mmLoopMax]
  | cons m ms ih =>
      intro value
      unfold mmLoopMax
      by_cases hdead : deadBranch (execute_move_unchecked game player m).board player = true
      · simp only [hdead, if_true]
        exact ih value
      · have hdead2 : deadBranch (execute_move_unchecked game player m).board player = false := by
          simpa using hdead
        obtain ⟨hA, hB⟩ := bothPaths_of_not_dead _ _ hdead2
        obtain ⟨s, hs⟩ := Option.isSome_iff_exists.mp (hrec _ hA hB)
        simp only [hdead2, Bool.false_eq_true, if_false, hs]
        exact ih _

theorem mmLoopMin_isSome (recurse : Game → Option Int) (game : Game) (player : Player)
    (hrec : ∀ g, (a_star g.board Player.A).isSome = true →
      (a_star g.board Player.B).isSome = true → (recurse g).isSome = true) :
    ∀ (ms : List PlayerMove) (value : Int),
      (mmLoopMin recurse game player ms value).isSome = true := by
  intro ms
  induction ms with
  | nil => intros; simp [mmLoopMin]
  | cons m ms ih =>
      intro value
      unfold mmLoopMin
      by_cases hdead : deadBranch (execute_move_unchecked game player m).board player = true
      · simp only [hdead, if_true]
        exact ih value
      · have hdead2 : deadBranch (execute_move_unchecked game player m).board player = false := by
          simpa using hdead
        obtain ⟨hA, hB⟩ := bothPaths_of_not_dead _ _ hdead2
        obtain ⟨s, hs⟩ := Option.isSome_iff_exists.mp (hrec _ hA hB)
        simp only [hdead2, Bool.false_eq_true, if_false, hs]
        exact ih _

theorem minimax_isSome (d : Nat) :
    ∀ (g : Game) (p : Player),
      (a_star g.board Player.A).isSome = true →
      (a_star g.board Player.B).isSome = true →
      (minimax d g p).isSome = true := by
  induction d with
  | zero => intro g p hA hB; exact heuristic_some_of_paths g hA hB
  | succ n ih =>
      intro g p hA hB
      unfold minimax
      cases p
      · exact mmLoopMax_isSome _ g .A (fun g' hA' hB' => ih g' .B hA' hB') _ _
      · exact mmLoopMin_isSome _ g .B (fun g' hA' hB' => ih g' .A hA' hB') _ _

theorem minimax_succ_isSome (d : Nat) (g : Game) (p : Player) :
    (minimax (d+1) g p).isSome = true := by
  unfold minimax
  cases p
  · exact mmLoopMax_isSome _ g .A
      (fun g' hA' hB' => minimax_isSome d g' .B hA' hB') _ _
  · exact mmLoopMin_isSome _ g .B
      (fun g' hA' hB' => minimax_isSome d g' .A hA' hB') _ _

/-- C10: starting from a state in which both players have a path to their
goal, `alpha_beta` never applies the static evaluation to a pathless state.
In the embedding, `heuristic_board_score` returns `none` exactly when the
source would unwrap a missing path, and `alpha_beta` propagates that `none`;
a `some` result therefore means the evaluation's error branch was never
reached. -/
theorem c10_static_eval_safe (d : Nat) (g : Game) (alpha beta : Int) (p : Player)
    (hA : (a_star g.board Player.A).isSome = true)
    (hB : (a_star g.board Player.B).isSome = true) :
    (alpha_beta d g alpha beta p).isSome = true :=
  alpha_beta_isSome d g alpha beta p hA hB

/-- Witness for C10 at a concrete input: depth 1 on `c7Game`. -/
theorem c10_static_eval_safe_witness :
    ((a_star c7Game.board Player.A).isSome = true ∧
     (a_star c7Game.board Player.B).isSome = true) ∧
    (alpha_beta 1 c7Game LOOSING_SCORE WINNING_SCORE Player.A).isSome = true :=
  ⟨⟨by decide, by decide⟩,
    c10_static_eval_safe 1 c7Game LOOSING_SCORE WINNING_SCORE Player.A
      (by decide) (by decide)⟩

/-! ### Step equations and bounds for the search loops -/

theorem abLoopMax_cons_eq (recurse : Game → Int → Int → Option (Int × Option PlayerMove))
    (game : Game) (player : Player) (m : PlayerMove) (ms : List PlayerMove)
    (alpha beta value : Int) (best : Option PlayerMove) :
    abLoopMax recurse game player (m :: ms) alpha beta value best =
      if deadBranch (execute_move_unchecked game player m).board player then
        abLoopMax recurse game player ms alpha beta value best
      else
        match recurse (execute_move_unchecked game player m) alpha beta with
        | none => none
        | some (score, _) =>
            if max value score ≥ beta then
              some (max value score, if score > value then some m else best)
            else
              abLoopMax recurse game player ms (max alpha (max value score)) beta
                (max value score) (if score > value then some m else best) := rfl

theorem abLoopMin_cons_eq (recurse : Game → Int → Int → Option (Int × Option PlayerMove))
    (game : Game) (player : Player) (m : PlayerMove) (ms : List PlayerMove)
    (alpha beta value : Int) (best : Option PlayerMove) :
    abLoopMin recurse game player (m :: ms) alpha beta value best =
      if deadBranch (execute_move_unchecked game player m).board player then
        abLoopMin recurse game player ms alpha beta value best
      else
        match recurse (execute_move_unchecked game player m) alpha beta with
        | none => none
        | some (score, _) =>
            if min value score ≤ alpha then
              some (min value score, if score < value then some m else best)
            else
              abLoopMin recurse game player ms alpha (min beta (min value score))
                (min value score) (if score < value then some m else best) := rfl

theorem mmLoopMax_cons_eq (recurse : Game → Option Int) (game : Game) (player : Player)
    (m : PlayerMove) (ms : List PlayerMove) (value : Int) :
    mmLoopMax recurse game player (m :: ms) value =
      if deadBranch (execute_move_unchecked game player m).board player then
        mmLoopMax recurse game player ms value
      else
        match recurse (execute_move_unchecked game player m) with
        | none => none
        | some score => mmLoopMax recurse game player ms (max value score) := rfl

theorem mmLoopMin_cons_eq (recurse : Game → Option Int) (game : Game) (player : Player)
    (m : PlayerMove) (ms : List PlayerMove) (value : Int) :
    mmLoopMin recurse game player (m :: ms) value =
      if deadBranch (execute_move_unchecked game player m).board player then
        mmLoopMin recurse game player ms value
      else
        match recurse (execute_move_unchecked game player m) with
        | none => none
        | some score => mmLoopMin recurse game player ms (min value score) := rfl

theorem abLoopMax_ge (recurse : Game → Int → Int → Option (Int × Option PlayerMove))
    (game : Game) (player : Player) :
    ∀ (ms : List PlayerMove) (alpha beta v : Int) (best : Option PlayerMove)
      (r : Int) (rb : Option PlayerMove),
      abLoopMax recurse game player ms alpha beta v best = some (r, rb) → v ≤ r := by
  intro ms
  induction ms with
  | nil =>
      intro a b v best r rb h
      simp only [abLoopMax, Option.some.injEq, Prod.mk.injEq] at h
      omega
  | cons m ms ih =>
      intro a b v best r rb h
      rw [abLoopMax_cons_eq] at h
      by_cases hdead : deadBranch (execute_move_unchecked game player m).board player = true
      · rw [if_pos hdead] at h; exact ih _ _ _ _ _ _ h
      · rw [if_neg hdead] at h
        cases hs : recurse (execute_move_unchecked game player m) a b with
        | none => rw [hs] at h; cases h
        | some pr =>
            obtain ⟨s, sm⟩ := pr
            rw [hs] at h
            simp only at h
            by_cases hb : max v s ≥ b
            · rw [if_pos hb] at h
              simp only [Option.some.injEq, Prod.mk.injEq] at h
              omega
            · rw [if_neg hb] at h
              have := ih _ _ _ _ _ _ h
              omega

theorem abLoopMax_le (recurse : Game → Int → Int → Option (Int × Option PlayerMove))
    (game : Game) (player : Player)
    (hub : ∀ g a b s m, recurse g a b = some (s, m) → s ≤ WINNING_SCORE) :
    ∀ (ms : List PlayerMove) (alpha beta v : Int) (best : Option PlayerMove)
      (r : Int) (rb : Option PlayerMove),
      abLoopMax recurse game player ms alpha beta v best = some (r, rb) →
      v ≤ WINNING_SCORE → r ≤ WINNING_SCORE := by
  intro ms
  induction ms with
  | nil =>
      intro a b v best r rb h hv
      simp only [abLoopMax, Option.some.injEq, Prod.mk.injEq] at h
      omega
  | cons m ms ih =>
      intro a b v best r rb h hv
      rw [abLoopMax_cons_eq] at h
      by_cases hdead : deadBranch (execute_move_unchecked game player m).board player = true
      · rw [if_pos hdead] at h; exact ih _ _ _ _ _ _ h hv
      · rw [if_neg hdead] at h
        cases hs : recurse (execute_move_unchecked game player m) a b with
        | none => rw [hs] at h; cases h
        | some pr =>
            obtain ⟨s, sm⟩ := pr
            rw [hs] at h
            simp only at h
            have hsW := hub _ _ _ _ _ hs
            by_cases hb : max v s ≥ b
            · rw [if_pos hb] at h
              simp only [Option.some.injEq, Prod.mk.injEq] at h
              omega
            · rw [if_neg hb] at h
              exact ih _ _ _ _ _ _ h (by omega)

theorem abLoopMin_le (recurse : Game → Int → Int → Option (Int × Option PlayerMove))
    (game : Game) (player : Player) :
    ∀ (ms : List PlayerMove) (alpha beta v : Int) (best : Option PlayerMove)
      (r : Int) (rb : Option PlayerMove),
      abLoopMin recurse game player ms alpha beta v best = some (r, rb) → r ≤ v := by
  intro ms
  induction ms with
  | nil =>
      intro a b v best r rb h
      simp only [abLoopMin, Option.some.injEq, Prod.mk.injEq] at h
      omega
  | cons m ms ih =>
      intro a b v best r rb h
      rw [abLoopMin_cons_eq] at h
      by_cases hdead : deadBranch (execute_move_unchecked game player m).board player = true
      · rw [if_pos hdead] at h; exact ih _ _ _ _ _ _ h
      · rw [if_neg hdead] at h
        cases hs : recurse (execute_move_unchecked game player m) a b with
        | none => rw [hs] at h; cases h
        | some pr =>
            obtain ⟨s, sm⟩ := pr
            rw [hs] at h
            simp only at h
            by_cases hb : min v s ≤ a
            · rw [if_pos hb] at h
              simp only [Option.some.injEq, Prod.mk.injEq] at h
              omega
            · rw [if_neg hb] at h
              have := ih _ _ _ _ _ _ h
              omega

theorem abLoopMin_ge (recurse : Game → Int → Int → Option (Int × Option PlayerMove))
    (game : Game) (player : Player)
    (hlb : ∀ g a b s m, recurse g a b = some (s, m) → LOOSING_SCORE ≤ s) :
    ∀ (ms : List PlayerMove) (alpha beta v : Int) (best : Option PlayerMove)
      (r : Int) (rb : Option PlayerMove),
      abLoopMin recurse game player ms alpha beta v best = some (r, rb) →
      LOOSING_SCORE ≤ v → LOOSING_SCORE ≤ r := by
  intro ms
  induction ms with
  | nil =>
      intro a b v best r rb h hv
      simp only [abLoopMin, Option.some.injEq, Prod.mk.injEq] at h
      omega
  | cons m ms ih =>
      intro a b v best r rb h hv
      rw [abLoopMin_cons_eq] at h
      by_cases hdead : deadBranch (execute_move_unchecked game player m).board player = true
      · rw [if_pos hdead] at h; exact ih _ _ _ _ _ _ h hv
      · rw [if_neg hdead] at h
        cases hs : recurse (execute_move_unchecked game player m) a b with
        | none => rw [hs] at h; cases h
        | some pr =>
            obtain ⟨s, sm⟩ := pr
            rw [hs] at h
            simp only at h
            have hsL := hlb _ _ _ _ _ hs
            by_cases hb : min v s ≤ a
            · rw [if_pos hb] at h
              simp only [Option.some.injEq, Prod.mk.injEq] at h
              omega
            · rw [if_neg hb] at h
              exact ih _ _ _ _ _ _ h (by omega)

theorem mmLoopMax_ge (recurse : Game → Option Int) (game : Game) (player : Player) :
    ∀ (ms : List PlayerMove) (v M : Int),
      mmLoopMax recurse game player ms v = some M → v ≤ M := by
  intro ms
  induction ms with
  | nil =>
      intro v M h
      simp only [mmLoopMax, Option.some.injEq] at h
      omega
  | cons m ms ih =>
      intro v M h
      rw [mmLoopMax_cons_eq] at h
      by_cases hdead : deadBranch (execute_move_unchecked game player m).board player = true
      · rw [if_pos hdead] at h; exact ih _ _ h
      · rw [if_neg hdead] at h
        cases hs : recurse (execute_move_unchecked game player m) with
        | none => rw [hs] at h; cases h
        | some s =>
            rw [hs] at h
            simp only at h
            have := ih _ _ h
            omega

theorem mmLoopMax_le (recurse : Game → Option Int) (game : Game) (player : Player)
    (hub : ∀ g s, recurse g = some s → s ≤ WINNING_SCORE) :
    ∀ (ms : List PlayerMove) (v M : Int),
      mmLoopMax recurse game player ms v = some M →
      v ≤ WINNING_SCORE → M ≤ WINNING_SCORE := by
  intro ms
  induction ms with
  | nil =>
      intro v M h hv
      simp only [mmLoopMax, Option.some.injEq] at h
      omega
  | cons m ms ih =>
      intro v M h hv
      rw [mmLoopMax_cons_eq] at h
      by_cases hdead : deadBranch (execute_move_unchecked game player m).board player = true
      · rw [if_pos hdead] at h; exact ih _ _ h hv
      · rw [if_neg hdead] at h
        cases hs : recurse (execute_move_unchecked game player m) with
        | none => rw [hs] at h; cases h
        | some s =>
            rw [hs] at h
            simp only at h
            have hsW := hub _ _ hs
            exact ih _ _ h (by omega)

theorem mmLoopMin_le (recurse : Game → Option Int) (game : Game) (player : Player) :
    ∀ (ms : List PlayerMove) (v M : Int),
      mmLoopMin recurse game player ms v = some M → M ≤ v := by
  intro ms
  induction ms with
  | nil =>
      intro v M h
      simp only [mmLoopMin, Option.some.injEq] at h
      omega
  | cons m ms ih =>
      intro v M h
      rw [mmLoopMin_cons_eq] at h
      by_cases hdead : deadBranch (execute_move_unchecked game player m).board player = true
      · rw [if_pos hdead] at h; exact ih _ _ h
      · rw [if_neg hdead] at h
        cases hs : recurse (execute_move_unchecked game player m) with
        | none => rw [hs] at h; cases h
        | some s =>
            rw [hs] at h
            simp only at h
            have := ih _ _ h
            omega

theorem mmLoopMin_ge (recurse : Game → Option Int) (game : Game) (player : Player)
    (hlb : ∀ g s, recurse g = some s → LOOSING_SCORE ≤ s) :
    ∀ (ms : List PlayerMove) (v M : Int),
      mmLoopMin recurse game player ms v = some M →
      LOOSING_SCORE ≤ v → LOOSING_SCORE ≤ M := by
  intro ms
  induction ms with
  | nil =>
      intro v M h hv
      simp only [mmLoopMin, Option.some.injEq] at h
      omega
  | cons m ms ih =>
      intro v M h hv
      rw [mmLoopMin_cons_eq] at h
      by_cases hdead : deadBranch (execute_move_unchecked game player m).board player = true
      · rw [if_pos hdead] at h; exact ih _ _ h hv
      · rw [if_neg hdead] at h
        cases hs : recurse (execute_move_unchecked game player m) with
        | none => rw [hs] at h; cases h
        | some s =>
            rw [hs] at h
            simp only at h
            have hsL := hlb _ _ hs
            exact ih _ _ h (by omega)

theorem alpha_beta_bounds (d : Nat) :
    ∀ (g : Game) (a b : Int) (p : Player) (v : Int) (mv : Option PlayerMove),
      alpha_beta d g a b p = some (v, mv) →
      LOOSING_SCORE ≤ v ∧ v ≤ WINNING_SCORE := by
  induction d with
  | zero =>
      intro g a b p v mv h
      unfold alpha_beta at h
      cases hh : heuristic_board_score g with
      | none => rw [hh] at h; cases h
      | some s =>
          rw [hh] at h
          simp only [Option.map_some', Option.some.injEq, Prod.mk.injEq] at h
          obtain ⟨h1, -⟩ := h
          subst h1
          exact heuristic_score_bounds g _ hh
  | succ n ih =>
      intro g a b p v mv h
      unfold alpha_beta at h
      cases p
      · exact ⟨abLoopMax_ge _ g .A _ a b LOOSING_SCORE none v mv h,
          abLoopMax_le _ g .A (fun g' a' b' s' m' hs' => (ih g' a' b' .B s' m' hs').2)
            _ a b _ none v mv h (le_of_lt LOOSING_lt_WINNING)⟩
      · exact ⟨abLoopMin_ge _ g .B (fun g' a' b' s' m' hs' => (ih g' a' b' .A s' m' hs').1)
            _ a b _ none v mv h (le_of_lt LOOSING_lt_WINNING),
          abLoopMin_le _ g .B _ a b WINNING_SCORE none v mv h⟩

theorem minimax_bounds (d : Nat) :
    ∀ (g : Game) (p : Player) (v : Int),
      minimax d g p = some v →
      LOOSING_SCORE ≤ v ∧ v ≤ WINNING_SCORE := by
  induction d with
  | zero =>
      intro g p v h
      exact heuristic_score_bounds g v h
  | succ n ih =>
      intro g p v h
      unfold minimax at h
      cases p
      · exact ⟨mmLoopMax_ge _ g .A _ LOOSING_SCORE v h,
          mmLoopMax_le _ g .A (fun g' s' hs' => (ih g' .B s' hs').2) _ _ v h
            (le_of_lt LOOSING_lt_WINNING)⟩
      · exact ⟨mmLoopMin_ge _ g .B (fun g' s' hs' => (ih g' .A s' hs').1) _ _ v h
            (le_of_lt LOOSING_lt_WINNING),
          mmLoopMin_le _ g .B _ WINNING_SCORE v h⟩

theorem mmLoopMax_shift (recurse : Game → Option Int) (game : Game) (player : Player)
    (hlb : ∀ g s, recurse g = some s → LOOSING_SCORE ≤ s) :
    ∀ (ms : List PlayerMove) (u : Int), LOOSING_SCORE ≤ u →
      mmLoopMax recurse game player ms u =
        (mmLoopMax recurse game player ms LOOSING_SCORE).map (max u) := by
  intro ms
  induction ms with
  | nil =>
      intro u hu
      simp only [mmLoopMax, Option.map_some', Option.some.injEq]
      omega
  | cons m ms ih =>
      intro u hu
      rw [mmLoopMax_cons_eq, mmLoopMax_cons_eq]
      by_cases hdead : deadBranch (execute_move_unchecked game player m).board player = true
      · rw [if_pos hdead, if_pos hdead]; exact ih u hu
      · rw [if_neg hdead, if_neg hdead]
        cases hs : recurse (execute_move_unchecked game player m) with
        | none => simp
        | some s =>
            simp only
            have hsL := hlb _ _ hs
            rw [ih (max u s) (by omega), ih (max LOOSING_SCORE s) (by omega)]
            cases hM0 : mmLoopMax recurse game player ms LOOSING_SCORE with
            | none => simp
            | some M0 =>
                simp only [Option.map_some', Option.some.injEq]
                omega

theorem mmLoopMin_shift (recurse : Game → Option Int) (game : Game) (player : Player)
    (hub : ∀ g s, recurse g = some s → s ≤ WINNING_SCORE) :
    ∀ (ms : List PlayerMove) (u : Int), u ≤ WINNING_SCORE →
      mmLoopMin recurse game player ms u =
        (mmLoopMin recurse game player ms WINNING_SCORE).map (min u) := by
  intro ms
  induction ms with
  | nil =>
      intro u hu
      simp only [mmLoopMin, Option.map_some', Option.some.injEq]
      omega
  | cons m ms ih =>
      intro u hu
      rw [mmLoopMin_cons_eq, mmLoopMin_cons_eq]
      by_cases hdead : deadBranch (execute_move_unchecked game player m).board player = true
      · rw [if_pos hdead, if_pos hdead]; exact ih u hu
      · rw [if_neg hdead, if_neg hdead]
        cases hs : recurse (execute_move_unchecked game player m) with
        | none => simp
        | some s =>
            simp only
            have hsW := hub _ _ hs
            rw [ih (min u s) (by omega), ih (min WINNING_SCORE s) (by omega)]
            cases hM0 : mmLoopMin recurse game player ms WINNING_SCORE with
            | none => simp
            | some M0 =>
                simp only [Option.map_some', Option.some.injEq]
                omega

/-- The fail-hard property of the maximizing loop: relative to the un-pruned
fold of the same children, the pruned loop's value agrees inside the window
and fails toward the correct side outside it. -/
theorem abLoopMax_failhard
    (fAB : Game → Int → Int → Option (Int × Option PlayerMove))
    (fMM : Game → Option Int) (game : Game) (player : Player)
    (hbAB : ∀ g a b s m, fAB g a b = some (s, m) →
        LOOSING_SCORE ≤ s ∧ s ≤ WINNING_SCORE)
    (hbMM : ∀ g s, fMM g = some s → LOOSING_SCORE ≤ s ∧ s ≤ WINNING_SCORE)
    (hrel : ∀ g a b, a < b → LOOSING_SCORE ≤ a → b ≤ WINNING_SCORE →
        ∀ s m w, fAB g a b = some (s, m) → fMM g = some w →
        (w ≤ a → s ≤ a) ∧ (b ≤ w → b ≤ s) ∧ (a < w → w < b → s = w)) :
    ∀ (ms : List PlayerMove) (a b v : Int) (best : Option PlayerMove)
      (r : Int) (rb : Option PlayerMove) (M : Int),
      LOOSING_SCORE ≤ v → v ≤ a → a < b → b ≤ WINNING_SCORE →
      abLoopMax fAB game player ms a b v best = some (r, rb) →
      mmLoopMax fMM game player ms v = some M →
      (M ≤ a → r ≤ a) ∧ (b ≤ M → b ≤ r) ∧ (a < M → M < b → r = M) := by
  intro ms
  induction ms with
  | nil =>
      intro a b v best r rb M hLv hva hab hbW hr hM
      simp only [abLoopMax, Option.some.injEq, Prod.mk.injEq] at hr
      simp only [mmLoopMax, Option.some.injEq] at hM
      obtain ⟨h1, -⟩ := hr
      refine ⟨?_, ?_, ?_⟩ <;> intros <;> omega
  | cons m ms ih =>
      intro a b v best r rb M hLv hva hab hbW hr hM
      rw [abLoopMax_cons_eq] at hr
      rw [mmLoopMax_cons_eq] at hM
      by_cases hdead : deadBranch (execute_move_unchecked game player m).board player = true
      · rw [if_pos hdead] at hr hM
        exact ih a b v best r rb M hLv hva hab hbW hr hM
      · rw [if_neg hdead] at hr hM
        cases hs : fAB (execute_move_unchecked game player m) a b with
        | none => rw [hs] at hr; cases hr
        | some pr =>
        obtain ⟨s, sm⟩ := pr
        rw [hs] at hr
        simp only at hr
        cases hw : fMM (execute_move_unchecked game player m) with
        | none => rw [hw] at hM; cases hM
        | some w =>
        rw [hw] at hM
        simp only at hM
        obtain ⟨hsL, hsW⟩ := hbAB _ _ _ _ _ hs
        obtain ⟨hwL, hwW⟩ := hbMM _ _ hw
        obtain ⟨rel1, rel2, rel3⟩ := hrel _ a b hab (by omega) hbW s sm w hs hw
        by_cases hbreak : max v s ≥ b
        · rw [if_pos hbreak] at hr
          simp only [Option.some.injEq, Prod.mk.injEq] at hr
          obtain ⟨hr1, -⟩ := hr
          have hsb : b ≤ s := by omega
          have hwb : b ≤ w := by
            by_contra hc
            push_neg at hc
            by_cases hwa : w ≤ a
            · have := rel1 hwa; omega
            · push_neg at hwa
              have := rel3 hwa hc; omega
          have hMge : max v w ≤ M := mmLoopMax_ge _ game player ms _ _ hM
          refine ⟨?_, ?_, ?_⟩ <;> intros <;> omega
        · rw [if_neg hbreak] at hr
          by_cases hwa : w ≤ a
          · have hsa : s ≤ a := rel1 hwa
            have heqa : max a (max v s) = a := by omega
            rw [heqa] at hr
            have hMshift := mmLoopMax_shift fMM game player
              (fun g' s' hs' => (hbMM g' s' hs').1) ms (max v w) (by omega)
            rw [hMshift] at hM
            cases hM0 : mmLoopMax fMM game player ms LOOSING_SCORE with
            | none => rw [hM0] at hM; cases hM
            | some M0 =>
            rw [hM0] at hM
            simp only [Option.map_some', Option.some.injEq] at hM
            have hMseq := mmLoopMax_shift fMM game player
              (fun g' s' hs' => (hbMM g' s' hs').1) ms (max v s) (by omega)
            rw [hM0] at hMseq
            simp only [Option.map_some'] at hMseq
            obtain ⟨i1, i2, i3⟩ := ih a b (max v s) _ r rb (max (max v s) M0)
              (by omega) (by omega) hab hbW hr hMseq
            refine ⟨?_, ?_, ?_⟩
            · intro hMa
              exact i1 (by omega)
            · intro hbM
              exact i2 (by omega)
            · intro haM hMb
              have := i3 (by omega) (by omega)
              omega
          · push_neg at hwa
            by_cases hwb : b ≤ w
            · have := rel2 hwb; omega
            · push_neg at hwb
              have hsw : s = w := rel3 hwa hwb
              subst hsw
              have hmv : max v s = s := by omega
              have heqa : max a (max v s) = s := by omega
              rw [heqa, hmv] at hr
              rw [hmv] at hM
              obtain ⟨i1, i2, i3⟩ := ih s b s _ r rb M hsL (le_refl s) (by omega) hbW hr hM
              have hMge : s ≤ M := mmLoopMax_ge _ game player ms _ _ hM
              have hrge : s ≤ r := abLoopMax_ge _ game player ms _ _ _ _ _ _ hr
              refine ⟨?_, ?_, ?_⟩
              · intro hMa; omega
              · exact i2
              · intro haM hMb
                by_cases hMs : M ≤ s
                · have := i1 hMs; omega
                · push_neg at hMs
                  exact i3 hMs hMb

/-- The fail-hard property of the minimizing loop. -/
theorem abLoopMin_failhard
    (fAB : Game → Int → Int → Option (Int × Option PlayerMove))
    (fMM : Game → Option Int) (game : Game) (player : Player)
    (hbAB : ∀ g a b s m, fAB g a b = some (s, m) →
        LOOSING_SCORE ≤ s ∧ s ≤ WINNING_SCORE)
    (hbMM : ∀ g s, fMM g = some s → LOOSING_SCORE ≤ s ∧ s ≤ WINNING_SCORE)
    (hrel : ∀ g a b, a < b → LOOSING_SCORE ≤ a → b ≤ WINNING_SCORE →
        ∀ s m w, fAB g a b = some (s, m) → fMM g = some w →
        (w ≤ a → s ≤ a) ∧ (b ≤ w → b ≤ s) ∧ (a < w → w < b → s = w)) :
    ∀ (ms : List PlayerMove) (a b v : Int) (best : Option PlayerMove)
      (r : Int) (rb : Option PlayerMove) (M : Int),
      v ≤ WINNING_SCORE → b ≤ v → a < b → LOOSING_SCORE ≤ a →
      abLoopMin fAB game player ms a b v best = some (r, rb) →
      mmLoopMin fMM game player ms v = some M →
      (M ≤ a → r ≤ a) ∧ (b ≤ M → b ≤ r) ∧ (a < M → M < b → r = M) := by
  intro ms
  induction ms with
  | nil =>
      intro a b v best r rb M hvW hbv hab hLa hr hM
      simp only [abLoopMin, Option.some.injEq, Prod.mk.injEq] at hr
      simp only [mmLoopMin, Option.some.injEq] at hM
      obtain ⟨h1, -⟩ := hr
      refine ⟨?_, ?_, ?_⟩ <;> intros <;> omega
  | cons m ms ih =>
      intro a b v best r rb M hvW hbv hab hLa hr hM
      rw [abLoopMin_cons_eq] at hr
      rw [mmLoopMin_cons_eq] at hM
      by_cases hdead : deadBranch (execute_move_unchecked game player m).board player = true
      · rw [if_pos hdead] at hr hM
        exact ih a b v best r rb M hvW hbv hab hLa hr hM
      · rw [if_neg hdead] at hr hM
        cases hs : fAB (execute_move_unchecked game player m) a b with
        | none => rw [hs] at hr; cases hr
        | some pr =>
        obtain ⟨s, sm⟩ := pr
        rw [hs] at hr
        simp only at hr
        cases hw : fMM (execute_move_unchecked game player m) with
        | none => rw [hw] at hM; cases hM
        | some w =>
        rw [hw] at hM
        simp only at hM
        obtain ⟨hsL, hsW⟩ := hbAB _ _ _ _ _ hs
        obtain ⟨hwL, hwW⟩ := hbMM _ _ hw
        obtain ⟨rel1, rel2, rel3⟩ := hrel _ a b hab hLa (by omega) s sm w hs hw
        by_cases hbreak : min v s ≤ a
        · rw [if_pos hbreak] at hr
          simp only [Option.some.injEq, Prod.mk.injEq] at hr
          obtain ⟨hr1, -⟩ := hr
          have hsa : s ≤ a := by omega
          have hwa : w ≤ a := by
            by_contra hc
            push_neg at hc
            by_cases hwb : b ≤ w
            · have := rel2 hwb; omega
            · push_neg at hwb
              have := rel3 hc hwb; omega
          have hMle : M ≤ min v w := mmLoopMin_le _ game player ms _ _ hM
          refine ⟨?_, ?_, ?_⟩ <;> intros <;> omega
        · rw [if_neg hbreak] at hr
          by_cases hwb : b ≤ w
          · have hsb : b ≤ s := rel2 hwb
            have heqb : min b (min v s) = b := by omega
            rw [heqb] at hr
            have hMshift := mmLoopMin_shift fMM game player
              (fun g' s' hs' => (hbMM g' s' hs').2) ms (min v w) (by omega)
            rw [hMshift] at hM
            cases hM0 : mmLoopMin fMM game player ms WINNING_SCORE with
            | none => rw [hM0] at hM; cases hM
            | some M0 =>
            rw [hM0] at hM
            simp only [Option.map_some', Option.some.injEq] at hM
            have hMseq := mmLoopMin_shift fMM game player
              (fun g' s' hs' => (hbMM g' s' hs').2) ms (min v s) (by omega)
            rw [hM0] at hMseq
            simp only [Option.map_some'] at hMseq
            obtain ⟨i1, i2, i3⟩ := ih a b (min v s) _ r rb (min (min v s) M0)
              (by omega) (by omega) hab hLa hr hMseq
            refine ⟨?_, ?_, ?_⟩
            · intro hMa
              exact i1 (by omega)
            · intro hbM
              exact i2 (by omega)
            · intro haM hMb
              have := i3 (by omega) (by omega)
              omega
          · push_neg at hwb
            by_cases hwa : w ≤ a
            · have := rel1 hwa; omega
            · push_neg at hwa
              have hsw : s = w := rel3 hwa hwb
              subst hsw
              have hmv : min v s = s := by omega
              have heqb : min b (min v s) = s := by omega
              rw [heqb, hmv] at hr
              rw [hmv] at hM
              obtain ⟨i1, i2, i3⟩ := ih a s s _ r rb M hsW (le_refl s) (by omega) hLa hr hM
              have hMle : M ≤ s := mmLoopMin_le _ game player ms _ _ hM
              have hrle : r ≤ s := abLoopMin_le _ game player ms _ _ _ _ _ _ hr
              refine ⟨?_, ?_, ?_⟩
              · exact i1
              · intro hbM; omega
              · intro haM hMb
                by_cases hMs : s ≤ M
                · have := i2 hMs; omega
                · push_neg at hMs
                  exact i3 haM hMs

/-- Fail-hard relation between `alpha_beta` and `minimax` at every depth:
within the window the scores agree, outside it `alpha_beta` fails on the
correct side. -/
theorem ab_mm_failhard (d : Nat) :
    ∀ (g : Game) (a b : Int) (p : Player), a < b →
      LOOSING_SCORE ≤ a → b ≤ WINNING_SCORE →
      ∀ (v : Int) (mv : Option PlayerMove) (w : Int),
        alpha_beta d g a b p = some (v, mv) → minimax d g p = some w →
        (w ≤ a → v ≤ a) ∧ (b ≤ w → b ≤ v) ∧ (a < w → w < b → v = w) := by
  induction d with
  | zero =>
      intro g a b p hab hLa hbW v mv w hv hw
      unfold alpha_beta at hv
      unfold minimax at hw
      rw [hw] at hv
      simp only [Option.map_some', Option.some.injEq, Prod.mk.injEq] at hv
      obtain ⟨h1, -⟩ := hv
      refine ⟨?_, ?_, ?_⟩ <;> intros <;> omega
  | succ n ih =>
      intro g a b p hab hLa hbW v mv w hv hw
      cases p
      · unfold alpha_beta at hv
        unfold minimax at hw
        exact abLoopMax_failhard _ _ g .A
          (fun g' a' b' s' m' hs' => alpha_beta_bounds n g' a' b' .B s' m' hs')
          (fun g' s' hs' => minimax_bounds n g' .B s' hs')
          (fun g' a' b' hab' hLa' hbW' s' m' w' hs' hw' =>
            ih g' a' b' .B hab' hLa' hbW' s' m' w' hs' hw')
          _ a b LOOSING_SCORE none v mv w (le_refl _) hLa hab hbW hv hw
      · unfold alpha_beta at hv
        unfold minimax at hw
        exact abLoopMin_failhard _ _ g .B
          (fun g' a' b' s' m' hs' => alpha_beta_bounds n g' a' b' .A s' m' hs')
          (fun g' s' hs' => minimax_bounds n g' .A s' hs')
          (fun g' a' b' hab' hLa' hbW' s' m' w' hs' hw' =>
            ih g' a' b' .A hab' hLa' hbW' s' m' w' hs' hw')
          _ a b WINNING_SCORE none v mv w (le_refl _) hbW hab hLa hv hw

/-- C3: the score returned by the root alpha-beta call with the full
(LOOSING_SCORE, WINNING_SCORE) window equals the score of the un-pruned
minimax over the same move ordering and dead-branch skipping rule: the
cutoffs never change the root score. -/
theorem c3_alpha_beta_equals_minimax (g : Game) (p : Player) (d : Nat) :
    (best_move_alpha_beta g p d).map Prod.fst = minimax d g p := by
  unfold best_move_alpha_beta
  cases d with
  | zero =>
      cases hh : heuristic_board_score g <;>
        simp [alpha_beta, minimax, hh]
  | succ n =>
      obtain ⟨⟨v, mv⟩, hv⟩ := Option.isSome_iff_exists.mp
        (alpha_beta_succ_isSome n g LOOSING_SCORE WINNING_SCORE p)
      obtain ⟨w, hw⟩ := Option.isSome_iff_exists.mp (minimax_succ_isSome n g p)
      obtain ⟨t1, t2, t3⟩ := ab_mm_failhard (n+1) g LOOSING_SCORE WINNING_SCORE p
        LOOSING_lt_WINNING (le_refl _) (le_refl _) v mv w hv hw
      obtain ⟨hwL, hwW⟩ := minimax_bounds (n+1) g p w hw
      obtain ⟨hvL, hvW⟩ := alpha_beta_bounds (n+1) g LOOSING_SCORE WINNING_SCORE p v mv hv
      rw [hv, hw]
      simp only [Option.map_some', Option.some.injEq]
      by_cases h1 : w ≤ LOOSING_SCORE
      · have := t1 h1; omega
      · by_cases h2 : WINNING_SCORE ≤ w
        · have := t2 h2; omega
        · push_neg at h1 h2
          exact t3 h1 h2

theorem abLoopMax_best_mono (recurse : Game → Int → Int → Option (Int × Option PlayerMove))
    (game : Game) (player : Player) :
    ∀ (ms : List PlayerMove) (a b v : Int) (best : Option PlayerMove)
      (r : Int) (rb : Option PlayerMove),
      abLoopMax recurse game player ms a b v best = some (r, rb) →
      best ≠ none → rb ≠ none := by
  intro ms
  induction ms with
  | nil =>
      intro a b v best r rb h hb
      simp only [abLoopMax, Option.some.injEq, Prod.mk.injEq] at h
      obtain ⟨-, h2⟩ := h
      rw [← h2]
      exact hb
  | cons m ms ih =>
      intro a b v best r rb h hb
      rw [abLoopMax_cons_eq] at h
      by_cases hdead : deadBranch (execute_move_unchecked game player m).board player = true
      · rw [if_pos hdead] at h; exact ih _ _ _ _ _ _ h hb
      · rw [if_neg hdead] at h
        cases hs : recurse (execute_move_unchecked game player m) a b with
        | none => rw [hs] at h; cases h
        | some pr =>
            obtain ⟨s, sm⟩ := pr
            rw [hs] at h
            simp only at h
            have hb2 : (if s > v then some m else best) ≠ none := by
              by_cases hsv : s > v
              · rw [if_pos hsv]; simp
              · rw [if_neg hsv]; exact hb
            by_cases hbk : max v s ≥ b
            · rw [if_pos hbk] at h
              simp only [Option.some.injEq, Prod.mk.injEq] at h
              obtain ⟨-, h2⟩ := h
              rw [← h2]
              exact hb2
            · rw [if_neg hbk] at h
              exact ih _ _ _ _ _ _ h hb2

theorem abLoopMin_best_mono (recurse : Game → Int → Int → Option (Int × Option PlayerMove))
    (game : Game) (player : Player) :
    ∀ (ms : List PlayerMove) (a b v : Int) (best : Option PlayerMove)
      (r : Int) (rb : Option PlayerMove),
      abLoopMin recurse game player ms a b v best = some (r, rb) →
      best ≠ none → rb ≠ none := by
  intro ms
  induction ms with
  | nil =>
      intro a b v best r rb h hb
      simp only [abLoopMin, Option.some.injEq, Prod.mk.injEq] at h
      obtain ⟨-, h2⟩ := h
      rw [← h2]
      exact hb
  | cons m ms ih =>
      intro a b v best r rb h hb
      rw [abLoopMin_cons_eq] at h
      by_cases hdead : deadBranch (execute_move_unchecked game player m).board player = true
      · rw [if_pos hdead] at h; exact ih _ _ _ _ _ _ h hb
      · rw [if_neg hdead] at h
        cases hs : recurse (execute_move_unchecked game player m) a b with
        | none => rw [hs] at h; cases h
        | some pr =>
            obtain ⟨s, sm⟩ := pr
            rw [hs] at h
            simp only at h
            have hb2 : (if s < v then some m else best) ≠ none := by
              by_cases hsv : s < v
              · rw [if_pos hsv]; simp
              · rw [if_neg hsv]; exact hb
            by_cases hbk : min v s ≤ a
            · rw [if_pos hbk] at h
              simp only [Option.some.injEq, Prod.mk.injEq] at h
              obtain ⟨-, h2⟩ := h
              rw [← h2]
              exact hb2
            · rw [if_neg hbk] at h
              exact ih _ _ _ _ _ _ h hb2

/-- At the full root window the maximizing loop records no move exactly when
no viable child improves on the LOOSING sentinel. -/
theorem abLoopMax_best_none_iff
    (fAB : Game → Int → Int → Option (Int × Option PlayerMove))
    (fMM : Game → Option Int) (game : Game) (player : Player)
    (htotMM : ∀ g', (a_star g'.board Player.A).isSome = true →
        (a_star g'.board Player.B).isSome = true → (fMM g').isSome = true)
    (hbAB : ∀ g' a b s m, fAB g' a b = some (s, m) →
        LOOSING_SCORE ≤ s ∧ s ≤ WINNING_SCORE)
    (hbMM : ∀ g' s, fMM g' = some s → LOOSING_SCORE ≤ s ∧ s ≤ WINNING_SCORE)
    (hrel : ∀ g' a b, a < b → LOOSING_SCORE ≤ a → b ≤ WINNING_SCORE →
        ∀ s m w, fAB g' a b = some (s, m) → fMM g' = some w →
        (w ≤ a → s ≤ a) ∧ (b ≤ w → b ≤ s) ∧ (a < w → w < b → s = w)) :
    ∀ (ms : List PlayerMove) (best : Option PlayerMove) (r : Int) (rb : Option PlayerMove),
      abLoopMax fAB game player ms LOOSING_SCORE WINNING_SCORE LOOSING_SCORE best =
        some (r, rb) →
      (rb = none ↔ (best = none ∧ ∀ m ∈ ms,
        deadBranch (execute_move_unchecked game player m).board player = true ∨
        fMM (execute_move_unchecked game player m) = some LOOSING_SCORE)) := by
  intro ms
  induction ms with
  | nil =>
      intro best r rb h
      simp only [abLoopMax, Option.some.injEq, Prod.mk.injEq] at h
      obtain ⟨-, h2⟩ := h
      subst h2
      simp
  | cons m ms ih =>
      intro best r rb h
      rw [abLoopMax_cons_eq] at h
      by_cases hdead : deadBranch (execute_move_unchecked game player m).board player = true
      · rw [if_pos hdead] at h
        rw [ih best r rb h]
        simp [List.forall_mem_cons, hdead]
      · rw [if_neg hdead] at h
        have hdead2 : deadBranch (execute_move_unchecked game player m).board player = false := by
          simpa using hdead
        obtain ⟨hA, hB⟩ := bothPaths_of_not_dead _ _ hdead2
        cases hs : fAB (execute_move_unchecked game player m) LOOSING_SCORE WINNING_SCORE with
        | none => rw [hs] at h; cases h
        | some pr =>
        obtain ⟨s, sm⟩ := pr
        rw [hs] at h
        simp only at h
        obtain ⟨w, hw⟩ := Option.isSome_iff_exists.mp (htotMM _ hA hB)
        obtain ⟨hsL, hsW⟩ := hbAB _ _ _ _ _ hs
        obtain ⟨hwL, hwW⟩ := hbMM _ _ hw
        obtain ⟨rel1, rel2, rel3⟩ := hrel _ LOOSING_SCORE WINNING_SCORE LOOSING_lt_WINNING
          (le_refl _) (le_refl _) s sm w hs hw
        have hLW := LOOSING_lt_WINNING
        have hsw_iff : s = LOOSING_SCORE ↔ w = LOOSING_SCORE := by
          constructor
          · intro hsl
            by_contra hc
            by_cases hwW2 : WINNING_SCORE ≤ w
            · have := rel2 hwW2; omega
            · push_neg at hwW2
              have := rel3 (by omega) hwW2
              omega
          · intro hwl
            have := rel1 (by omega)
            omega
        by_cases hcase : s = LOOSING_SCORE
        · have hmax : max LOOSING_SCORE s = LOOSING_SCORE := by omega
          rw [hmax] at h
          have hmax2 : max LOOSING_SCORE LOOSING_SCORE = LOOSING_SCORE := by omega
          rw [hmax2] at h
          rw [if_neg (by omega : ¬ LOOSING_SCORE ≥ WINNING_SCORE)] at h
          rw [if_neg (by omega : ¬ s > LOOSING_SCORE)] at h
          rw [ih best r rb h]
          have hwl : w = LOOSING_SCORE := hsw_iff.mp hcase
          subst hwl
          simp [List.forall_mem_cons, hdead2, hw]
        · have hbest2 : (if s > LOOSING_SCORE then some m else best) = some m := by
            rw [if_pos (by omega)]
          rw [hbest2] at h
          have hw_ne : w ≠ LOOSING_SCORE := fun hc => hcase (hsw_iff.mpr hc)
          have hrb : rb ≠ none := by
            by_cases hbk : max LOOSING_SCORE s ≥ WINNING_SCORE
            · rw [if_pos hbk] at h
              simp only [Option.some.injEq, Prod.mk.injEq] at h
              obtain ⟨-, h2⟩ := h
              rw [← h2]
              simp
            · rw [if_neg hbk] at h
              exact abLoopMax_best_mono _ game player ms _ _ _ _ _ _ h (by simp)
          constructor
          · intro hc; exact absurd hc hrb
          · rintro ⟨-, hall⟩
            rcases hall m (List.mem_cons_self m ms) with hd | hfm
            · exact absurd hd hdead
            · rw [hw] at hfm
              exact absurd (Option.some.inj hfm) hw_ne

/-- At the full root window the minimizing loop records no move exactly when
no viable child improves on the WINNING sentinel. -/
theorem abLoopMin_best_none_iff
    (fAB : Game → Int → Int → Option (Int × Option PlayerMove))
    (fMM : Game → Option Int) (game : Game) (player : Player)
    (htotMM : ∀ g', (a_star g'.board Player.A).isSome = true →
        (a_star g'.board Player.B).isSome = true → (fMM g').isSome = true)
    (hbAB : ∀ g' a b s m, fAB g' a b = some (s, m) →
        LOOSING_SCORE ≤ s ∧ s ≤ WINNING_SCORE)
    (hbMM : ∀ g' s, fMM g' = some s → LOOSING_SCORE ≤ s ∧ s ≤ WINNING_SCORE)
    (hrel : ∀ g' a b, a < b → LOOSING_SCORE ≤ a → b ≤ WINNING_SCORE →
        ∀ s m w, fAB g' a b = some (s, m) → fMM g' = some w →
        (w ≤ a → s ≤ a) ∧ (b ≤ w → b ≤ s) ∧ (a < w → w < b → s = w)) :
    ∀ (ms : List PlayerMove) (best : Option PlayerMove) (r : Int) (rb : Option PlayerMove),
      abLoopMin fAB game player ms LOOSING_SCORE WINNING_SCORE WINNING_SCORE best =
        some (r, rb) →
      (rb = none ↔ (best = none ∧ ∀ m ∈ ms,
        deadBranch (execute_move_unchecked game player m).board player = true ∨
        fMM (execute_move_unchecked game player m) = some WINNING_SCORE)) := by
  intro ms
  induction ms with
  | nil =>
      intro best r rb h
      simp only [abLoopMin, Option.some.injEq, Prod.mk.injEq] at h
      obtain ⟨-, h2⟩ := h
      subst h2
      simp
  | cons m ms ih =>
      intro best r rb h
      rw [abLoopMin_cons_eq] at h
      by_cases hdead : deadBranch (execute_move_unchecked game player m).board player = true
      · rw [if_pos hdead] at h
        rw [ih best r rb h]
        simp [List.forall_mem_cons, hdead]
      · rw [if_neg hdead] at h
        have hdead2 : deadBranch (execute_move_unchecked game player m).board player = false := by
          simpa using hdead
        obtain ⟨hA, hB⟩ := bothPaths_of_not_dead _ _ hdead2
        cases hs : fAB (execute_move_unchecked game player m) LOOSING_SCORE WINNING_SCORE with
        | none => rw [hs] at h; cases h
        | some pr =>
        obtain ⟨s, sm⟩ := pr
        rw [hs] at h
        simp only at h
        obtain ⟨w, hw⟩ := Option.isSome_iff_exists.mp (htotMM _ hA hB)
        obtain ⟨hsL, hsW⟩ := hbAB _ _ _ _ _ hs
        obtain ⟨hwL, hwW⟩ := hbMM _ _ hw
        obtain ⟨rel1, rel2, rel3⟩ := hrel _ LOOSING_SCORE WINNING_SCORE LOOSING_lt_WINNING
          (le_refl _) (le_refl _) s sm w hs hw
        have hLW := LOOSING_lt_WINNING
        have hsw_iff : s = WINNING_SCORE ↔ w = WINNING_SCORE := by
          constructor
          · intro hsl
            by_contra hc
            by_cases hwL2 : w ≤ LOOSING_SCORE
            · have := rel1 hwL2; omega
            · push_neg at hwL2
              have := rel3 hwL2 (by omega)
              omega
          · intro hwl
            have := rel2 (by omega)
            omega
        by_cases hcase : s = WINNING_SCORE
        · have hmin : min WINNING_SCORE s = WINNING_SCORE := by omega
          rw [hmin] at h
          have hmin2 : min WINNING_SCORE WINNING_SCORE = WINNING_SCORE := by omega
          rw [hmin2] at h
          rw [if_neg (by omega : ¬ WINNING_SCORE ≤ LOOSING_SCORE)] at h
          rw [if_neg (by omega : ¬ s < WINNING_SCORE)] at h
          rw [ih best r rb h]
          have hwl : w = WINNING_SCORE := hsw_iff.mp hcase
          subst hwl
          simp [List.forall_mem_cons, hdead2, hw]
        · have hbest2 : (if s < WINNING_SCORE then some m else best) = some m := by
            rw [if_pos (by omega)]
          rw [hbest2] at h
          have hw_ne : w ≠ WINNING_SCORE := fun hc => hcase (hsw_iff.mpr hc)
          have hrb : rb ≠ none := by
            by_cases hbk : min WINNING_SCORE s ≤ LOOSING_SCORE
            · rw [if_pos hbk] at h
              simp only [Option.some.injEq, Prod.mk.injEq] at h
              obtain ⟨-, h2⟩ := h
              rw [← h2]
              simp
            · rw [if_neg hbk] at h
              exact abLoopMin_best_mono _ game player ms _ _ _ _ _ _ h (by simp)
          constructor
          · intro hc; exact absurd hc hrb
          · rintro ⟨-, hall⟩
            rcases hall m (List.mem_cons_self m ms) with hd | hfm
            · exact absurd hd hdead
            · rw [hw] at hfm
              exact absurd (Option.some.inj hfm) hw_ne

/-- C7 (amended): whenever the search returns a score at all, the returned
move is `none` exactly when the depth is 0, or every candidate move either
leads to a dead branch or has un-pruned minimax score equal to the mover's
sentinel (so no viable move strictly improves on the running start value,
and the code never records one). -/
theorem c7_amended (g : Game) (p : Player) (d : Nat) (v : Int)
    (best : Option PlayerMove)
    (h : best_move_alpha_beta g p d = some (v, best)) :
    (best = none ↔ (d = 0 ∨ ∀ m ∈ moves_ordered_by_heuristic_quality g p,
      deadBranch (execute_move_unchecked g p m).board p = true ∨
      minimax (d - 1) (execute_move_unchecked g p m) p.opponent =
        some (sentinelScore p))) := by
  unfold best_move_alpha_beta at h
  cases d with
  | zero =>
      unfold alpha_beta at h
      cases hh : heuristic_board_score g with
      | none => rw [hh] at h; cases h
      | some s =>
          rw [hh] at h
          simp only [Option.map_some', Option.some.injEq, Prod.mk.injEq] at h
          obtain ⟨-, h2⟩ := h
          subst h2
          simp
  | succ n =>
      cases p
      · unfold alpha_beta at h
        have := abLoopMax_best_none_iff (fun g' a' b' => alpha_beta n g' a' b' .B)
          (fun g' => minimax n g' .B) g .A
          (fun g' hA hB => minimax_isSome n g' .B hA hB)
          (fun g' a' b' s' m' hs' => alpha_beta_bounds n g' a' b' .B s' m' hs')
          (fun g' s' hs' => minimax_bounds n g' .B s' hs')
          (fun g' a' b' hab' hLa' hbW' s' m' w' hs' hw' =>
            ab_mm_failhard n g' a' b' .B hab' hLa' hbW' s' m' w' hs' hw')
          (moves_ordered_by_heuristic_quality g .A) none v best h
        rw [this]
        simp [sentinelScore, Player.opponent]
      · unfold alpha_beta at h
        have := abLoopMin_best_none_iff (fun g' a' b' => alpha_beta n g' a' b' .A)
          (fun g' => minimax n g' .A) g .B
          (fun g' hA hB => minimax_isSome n g' .A hA hB)
          (fun g' a' b' s' m' hs' => alpha_beta_bounds n g' a' b' .A s' m' hs')
          (fun g' s' hs' => minimax_bounds n g' .A s' hs')
          (fun g' a' b' hab' hLa' hbW' s' m' w' hs' hw' =>
            ab_mm_failhard n g' a' b' .A hab' hLa' hbW' s' m' w' hs' hw')
          (moves_ordered_by_heuristic_quality g .B) none v best h
        rw [this]
        simp [sentinelScore, Player.opponent]

/-- Witness for C7 (amended) at a concrete input: depth 1 on `c7Game`. -/
theorem c7_amended_witness :
    best_move_alpha_beta c7Game Player.A 1 = some (LOOSING_SCORE, none) ∧
    ((none : Option PlayerMove) = none ↔
      ((1 : Nat) = 0 ∨ ∀ m ∈ moves_ordered_by_heuristic_quality c7Game Player.A,
        deadBranch (execute_move_unchecked c7Game Player.A m).board Player.A = true ∨
        minimax 0 (execute_move_unchecked c7Game Player.A m) Player.A.opponent =
          some (sentinelScore Player.A))) :=
  ⟨by decide, c7_amended c7Game Player.A 1 LOOSING_SCORE none (by decide)⟩

/-- C2 (amended): the static evaluation is always taken from player A's
fixed perspective (A is the maximizer); when B's path has length 0 it is
`LOOSING_SCORE`, otherwise when A's path has length 0 it is `WINNING_SCORE`,
and otherwise it is exactly the path-length difference
`opponent_path_length - player_path_length`: the wall term is multiplied by
the source's `wall_priority = 0` and never contributes. -/
theorem c2_amended (g : Game) (oPath pPath : List PiecePosition)
    (hB : a_star g.board Player.B = some oPath)
    (hA : a_star g.board Player.A = some pPath) :
    heuristic_board_score g =
      (if oPath.length = 0 then some LOOSING_SCORE
       else if pPath.length = 0 then some WINNING_SCORE
       else some ((oPath.length : Int) - (pPath.length : Int))) := by
  unfold heuristic_board_score
  rw [hB, hA]
  simp only
  by_cases h0 : (oPath.length : Int) = 0
  · rw [if_pos h0, if_pos (by exact_mod_cast h0)]
  · rw [if_neg h0, if_neg (show ¬ oPath.length = 0 by exact_mod_cast h0)]
    by_cases h1 : (pPath.length : Int) = 0
    · rw [if_pos h1, if_pos (by exact_mod_cast h1)]
    · rw [if_neg h1, if_neg (show ¬ pPath.length = 0 by exact_mod_cast h1)]
      congr 1
      ring

/-- Witness for C2 (amended) at a concrete input: `c2Game`, where both path
lengths are 1. -/
theorem c2_amended_witness :
    (a_star c2Game.board Player.B = some [PiecePosition.make 8 0] ∧
     a_star c2Game.board Player.A = some [PiecePosition.make 4 8]) ∧
    heuristic_board_score c2Game =
      (if ([PiecePosition.make 8 0] : List PiecePosition).length = 0 then
        some LOOSING_SCORE
       else if ([PiecePosition.make 4 8] : List PiecePosition).length = 0 then
        some WINNING_SCORE
       else some ((([PiecePosition.make 8 0] : List PiecePosition).length : Int) -
         (([PiecePosition.make 4 8] : List PiecePosition).length : Int))) :=
  ⟨⟨by decide, by decide⟩,
    c2_amended c2Game [PiecePosition.make 8 0] [PiecePosition.make 4 8]
      (by decide) (by decide)⟩

theorem range_four_mul (l : Nat) : List.range (4 * l) =
    List.range l ++ ((List.range l).map (fun p => l + p) ++
    (((List.range l).map (fun p => l + (l + p))) ++
    ((List.range l).map (fun p => l + (l + (l + p)))))) := by
  have h1 : 4 * l = l + (l + (l + l)) := by ring
  rw [h1, List.range_add, List.range_add, List.range_add]
  simp [List.map_append, List.map_map, Function.comp_def]

theorem squareOutline_sides (tlx tly : Int) (l : Nat) (hl : 1 ≤ l) :
    squareOutline tlx tly (l + 1) =
      (((List.range l).map fun (p : Nat) => ((tlx + (p : Int), tly) : Int × Int)) ++
      (((List.range l).map fun (p : Nat) => ((tlx + (l : Int), tly + (p : Int)) : Int × Int)) ++
      ((((List.range l).map fun (p : Nat) =>
          ((tlx + ((l - p : Nat) : Int), tly + (l : Int)) : Int × Int)) ++
      ((List.range l).map fun (p : Nat) =>
          ((tlx, tly + ((l - p : Nat) : Int)) : Int × Int)))))) := by
  unfold squareOutline
  rw [if_neg (by omega : ¬ l + 1 < 1)]
  simp only [Nat.add_sub_cancel]
  rw [range_four_mul]
  simp only [List.map_append, List.map_map]
  congr 1
  · apply List.map_congr_left
    intro p hp
    rw [List.mem_range] at hp
    rw [Nat.div_eq_of_lt hp, Nat.mod_eq_of_lt hp]
    simp
  congr 1
  · apply List.map_congr_left
    intro p hp
    rw [List.mem_range] at hp
    simp only [Function.comp_apply]
    have hd : (l + p) / l = 1 := by
      rw [Nat.add_comm, Nat.add_div_right _ (by omega), Nat.div_eq_of_lt hp]
    have hm : (l + p) % l = p := by
      rw [Nat.add_comm, Nat.add_mod_right, Nat.mod_eq_of_lt hp]
    rw [hd, hm]
  congr 1
  · apply List.map_congr_left
    intro p hp
    rw [List.mem_range] at hp
    simp only [Function.comp_apply]
    have he : l + (l + p) = p + 2 * l := by ring
    have hd : (p + 2 * l) / l = 2 := by
      rw [Nat.add_mul_div_right _ _ (by omega : 0 < l), Nat.div_eq_of_lt hp]
    have hm : (p + 2 * l) % l = p := by
      rw [Nat.add_mul_mod_self_right, Nat.mod_eq_of_lt hp]
    rw [he, hd, hm]
  · apply List.map_congr_left
    intro p hp
    rw [List.mem_range] at hp
    simp only [Function.comp_apply]
    have he : l + (l + (l + p)) = p + 3 * l := by ring
    have hd : (p + 3 * l) / l = 3 := by
      rw [Nat.add_mul_div_right _ _ (by omega : 0 < l), Nat.div_eq_of_lt hp]
    have hm : (p + 3 * l) % l = p := by
      rw [Nat.add_mul_mod_self_right, Nat.mod_eq_of_lt hp]
    rw [he, hd, hm]
    simp

theorem mem_squareOutline_iff (tlx tly : Int) (i : Nat) (hi : 1 ≤ i) (x y : Int) :
    ((x, y) ∈ squareOutline tlx tly (2 * i)) ↔
      ((y = tly ∧ tlx ≤ x ∧ x ≤ tlx + 2 * i - 2) ∨
       (x = tlx + 2 * i - 1 ∧ tly ≤ y ∧ y ≤ tly + 2 * i - 2) ∨
       (y = tly + 2 * i - 1 ∧ tlx + 1 ≤ x ∧ x ≤ tlx + 2 * i - 1) ∨
       (x = tlx ∧ tly + 1 ≤ y ∧ y ≤ tly + 2 * i - 1)) := by
  have h2i : 2 * i = (2 * i - 1) + 1 := by omega
  rw [h2i, squareOutline_sides tlx tly (2 * i - 1) (by omega)]
  simp only [List.mem_append, List.mem_map, List.mem_range, Prod.mk.injEq]
  constructor
  · rintro (⟨p, hp, hx, hy⟩ | ⟨p, hp, hx, hy⟩ | ⟨p, hp, hx, hy⟩ | ⟨p, hp, hx, hy⟩)
    · left; omega
    · right; left; omega
    · right; right; left; omega
    · right; right; right; omega
  · rintro (⟨hy, hx1, hx2⟩ | ⟨hx, hy1, hy2⟩ | ⟨hy, hx1, hx2⟩ | ⟨hx, hy1, hy2⟩)
    · exact Or.inl ⟨(x - tlx).toNat, by omega, by omega, by omega⟩
    · exact Or.inr (Or.inl ⟨(y - tly).toNat, by omega, by omega, by omega⟩)
    · exact Or.inr (Or.inr (Or.inl ⟨(tlx + 2 * i - 1 - x).toNat, by omega, by omega, by omega⟩))
    · exact Or.inr (Or.inr (Or.inr ⟨(tly + 2 * i - 1 - y).toNat, by omega, by omega, by omega⟩))

theorem squareOutline_nodup (tlx tly : Int) (i : Nat) (hi : 1 ≤ i) :
    (squareOutline tlx tly (2 * i)).Nodup := by
  have h2i : 2 * i = (2 * i - 1) + 1 := by omega
  rw [h2i, squareOutline_sides tlx tly (2 * i - 1) (by omega)]
  have hr : (List.range (2 * i - 1)).Nodup := List.nodup_range _
  have inj0 : ∀ p ∈ List.range (2 * i - 1), ∀ q ∈ List.range (2 * i - 1),
      ((tlx + (p : Int), tly) : Int × Int) = (tlx + (q : Int), tly) → p = q := by
    intro p hp q hq h
    simp only [Prod.mk.injEq] at h
    omega
  have inj1 : ∀ p ∈ List.range (2 * i - 1), ∀ q ∈ List.range (2 * i - 1),
      ((tlx + ((2 * i - 1 : Nat) : Int), tly + (p : Int)) : Int × Int) =
        (tlx + ((2 * i - 1 : Nat) : Int), tly + (q : Int)) → p = q := by
    intro p hp q hq h
    simp only [Prod.mk.injEq] at h
    omega
  have inj2 : ∀ p ∈ List.range (2 * i - 1), ∀ q ∈ List.range (2 * i - 1),
      ((tlx + ((2 * i - 1 - p : Nat) : Int), tly + ((2 * i - 1 : Nat) : Int)) : Int × Int) =
        (tlx + ((2 * i - 1 - q : Nat) : Int), tly + ((2 * i - 1 : Nat) : Int)) → p = q := by
    intro p hp q hq h
    rw [List.mem_range] at hp hq
    simp only [Prod.mk.injEq] at h
    omega
  have inj3 : ∀ p ∈ List.range (2 * i - 1), ∀ q ∈ List.range (2 * i - 1),
      ((tlx, tly + ((2 * i - 1 - p : Nat) : Int)) : Int × Int) =
        (tlx, tly + ((2 * i - 1 - q : Nat) : Int)) → p = q := by
    intro p hp q hq h
    rw [List.mem_range] at hp hq
    simp only [Prod.mk.injEq] at h
    omega
  refine List.Nodup.append (List.Nodup.map_on inj0 hr)
    (List.Nodup.append (List.Nodup.map_on inj1 hr)
      (List.Nodup.append (List.Nodup.map_on inj2 hr) (List.Nodup.map_on inj3 hr) ?_) ?_) ?_
  · intro a ha hb
    obtain ⟨p, hp, rfl⟩ := List.mem_map.mp ha
    obtain ⟨q, hq, hab⟩ := List.mem_map.mp hb
    rw [List.mem_range] at hp hq
    simp only [Prod.mk.injEq] at hab
    omega
  · intro a ha hb
    obtain ⟨p, hp, rfl⟩ := List.mem_map.mp ha
    rcases List.mem_append.mp hb with hb | hb
    · obtain ⟨q, hq, hab⟩ := List.mem_map.mp hb
      rw [List.mem_range] at hp hq
      simp only [Prod.mk.injEq] at hab
      omega
    · obtain ⟨q, hq, hab⟩ := List.mem_map.mp hb
      rw [List.mem_range] at hp hq
      simp only [Prod.mk.injEq] at hab
      omega
  · intro a ha hb
    obtain ⟨p, hp, rfl⟩ := List.mem_map.mp ha
    rw [List.mem_range] at hp
    rcases List.mem_append.mp hb with hb | hb
    · obtain ⟨q, hq, hab⟩ := List.mem_map.mp hb
      rw [List.mem_range] at hq
      simp only [Prod.mk.injEq] at hab
      omega
    · rcases List.mem_append.mp hb with hb | hb <;>
        (obtain ⟨q, hq, hab⟩ := List.mem_map.mp hb
         rw [List.mem_range] at hq
         simp only [Prod.mk.injEq] at hab
         omega)

theorem wallMovesAt_acc (game : Game) (player : Player) (xy : Int × Int)
    (base : List PlayerMove) :
    [WallOrientation.Horizontal, WallOrientation.Vertical].foldl
      (fun ms2 o =>
        if game.walls_left player > 0 ∧
            room_for_wall_placement game.board o xy.1 xy.2 then
          ms2 ++ [PlayerMove.PlaceWall o ⟨xy.1.toNat, xy.2.toNat⟩]
        else ms2) base =
    base ++ wallMovesAt game player xy := by
  unfold wallMovesAt
  simp only [List.foldl_cons, List.foldl_nil]
  by_cases h1 : game.walls_left player > 0 ∧
      room_for_wall_placement game.board WallOrientation.Horizontal xy.1 xy.2
  · by_cases h2 : game.walls_left player > 0 ∧
        room_for_wall_placement game.board WallOrientation.Vertical xy.1 xy.2
    · simp only [if_pos h1, if_pos h2]; simp
    · simp only [if_pos h1, if_neg h2]; simp
  · by_cases h2 : game.walls_left player > 0 ∧
        room_for_wall_placement game.board WallOrientation.Vertical xy.1 xy.2
    · simp only [if_neg h1, if_pos h2]; simp
    · simp only [if_neg h1, if_neg h2]; simp

theorem ring_foldl_eq (game : Game) (player : Player) :
    ∀ (l : List (Int × Int)) (acc : List PlayerMove × Bool),
      l.foldl
        (fun acc xy =>
          let in_bounds := 0 ≤ xy.1 ∧ 0 ≤ xy.2 ∧
            xy.1 < (WALL_GRID_WIDTH : Int) ∧ xy.2 < (WALL_GRID_HEIGHT : Int)
          if in_bounds then
            let ms' := [WallOrientation.Horizontal, WallOrientation.Vertical].foldl
              (fun ms2 o =>
                if game.walls_left player > 0 ∧
                    room_for_wall_placement game.board o xy.1 xy.2 then
                  ms2 ++ [PlayerMove.PlaceWall o ⟨xy.1.toNat, xy.2.toNat⟩]
                else ms2) acc.1
            (ms', true)
          else acc) acc =
      (acc.1 ++ (l.filter (fun xy => decide (inBoundsSlot xy))).flatMap
        (wallMovesAt game player),
       acc.2 || l.any (fun xy => decide (inBoundsSlot xy))) := by
  intro l
  induction l with
  | nil => intro acc; simp
  | cons xy l ih =>
      intro acc
      rw [List.foldl_cons]
      by_cases hin : inBoundsSlot xy
      · rw [if_pos (show 0 ≤ xy.1 ∧ 0 ≤ xy.2 ∧ xy.1 < (WALL_GRID_WIDTH : Int) ∧
            xy.2 < (WALL_GRID_HEIGHT : Int) from hin)]
        rw [wallMovesAt_acc game player xy acc.1]
        rw [ih (acc.1 ++ wallMovesAt game player xy, true)]
        have hd : decide (inBoundsSlot xy) = true := decide_eq_true hin
        simp [hd, List.append_assoc]
      · rw [if_neg (show ¬ (0 ≤ xy.1 ∧ 0 ≤ xy.2 ∧ xy.1 < (WALL_GRID_WIDTH : Int) ∧
            xy.2 < (WALL_GRID_HEIGHT : Int)) from hin)]
        rw [ih acc]
        have hd : decide (inBoundsSlot xy) = false := decide_eq_false hin
        simp [hd]

theorem ringWallMoves_eq (game : Game) (player : Player) (origin : PiecePosition)
    (i : Nat) :
    ringWallMoves game player origin i =
      (((squareOutline ((origin.x : Int) - i) ((origin.y : Int) - i)
          (2 * i)).filter (fun xy => decide (inBoundsSlot xy))).flatMap
        (wallMovesAt game player),
       (squareOutline ((origin.x : Int) - i) ((origin.y : Int) - i)
          (2 * i)).any (fun xy => decide (inBoundsSlot xy))) := by
  unfold ringWallMoves
  rw [ring_foldl_eq game player]
  simp

theorem mem_wallMovesAt (game : Game) (player : Player) (xy : Int × Int)
    (mv : PlayerMove) :
    mv ∈ wallMovesAt game player xy ↔
      ((game.walls_left player > 0 ∧
          room_for_wall_placement game.board WallOrientation.Horizontal xy.1 xy.2) ∧
        mv = PlayerMove.PlaceWall WallOrientation.Horizontal ⟨xy.1.toNat, xy.2.toNat⟩) ∨
      ((game.walls_left player > 0 ∧
          room_for_wall_placement game.board WallOrientation.Vertical xy.1 xy.2) ∧
        mv = PlayerMove.PlaceWall WallOrientation.Vertical ⟨xy.1.toNat, xy.2.toNat⟩) := by
  unfold wallMovesAt
  simp only [List.foldl_cons, List.foldl_nil]
  by_cases h1 : game.walls_left player > 0 ∧
      room_for_wall_placement game.board WallOrientation.Horizontal xy.1 xy.2
  · by_cases h2 : game.walls_left player > 0 ∧
        room_for_wall_placement game.board WallOrientation.Vertical xy.1 xy.2
    · simp only [if_pos h1, if_pos h2]; simp [h1, h2]
    · simp only [if_pos h1, if_neg h2]
      simp [h1, h2]
      intro hr hm
      exact absurd ⟨h1.1, hr⟩ h2
  · by_cases h2 : game.walls_left player > 0 ∧
        room_for_wall_placement game.board WallOrientation.Vertical xy.1 xy.2
    · simp only [if_neg h1, if_pos h2]
      simp [h1, h2]
      intro hr hm
      exact absurd ⟨h2.1, hr⟩ h1
    · simp only [if_neg h1, if_neg h2]; simp [h1, h2]

theorem wallMovesAt_nodup (game : Game) (player : Player) (xy : Int × Int) :
    (wallMovesAt game player xy).Nodup := by
  unfold wallMovesAt
  simp only [List.foldl_cons, List.foldl_nil]
  by_cases h1 : game.walls_left player > 0 ∧
      room_for_wall_placement game.board WallOrientation.Horizontal xy.1 xy.2
  · by_cases h2 : game.walls_left player > 0 ∧
        room_for_wall_placement game.board WallOrientation.Vertical xy.1 xy.2
    · simp only [if_pos h1, if_pos h2]; simp
    · simp only [if_pos h1, if_neg h2]; simp
  · by_cases h2 : game.walls_left player > 0 ∧
        room_for_wall_placement game.board WallOrientation.Vertical xy.1 xy.2
    · simp only [if_neg h1, if_pos h2]; simp
    · simp only [if_neg h1, if_neg h2]; simp

theorem wallMovesAt_inj (game : Game) (player : Player) (xy xy' : Int × Int)
    (h : inBoundsSlot xy) (h' : inBoundsSlot xy') (mv : PlayerMove)
    (hm : mv ∈ wallMovesAt game player xy)
    (hm' : mv ∈ wallMovesAt game player xy') : xy = xy' := by
  rw [mem_wallMovesAt] at hm hm'
  obtain ⟨hx1, hy1, -, -⟩ := h
  obtain ⟨hx2, hy2, -, -⟩ := h'
  rcases hm with ⟨-, rfl⟩ | ⟨-, rfl⟩
  · rcases hm' with ⟨-, he⟩ | ⟨-, he⟩
    · simp only [PlayerMove.PlaceWall.injEq, WallPosition.mk.injEq, true_and] at he
      exact Prod.ext_iff.mpr ⟨by omega, by omega⟩
    · simp at he
  · rcases hm' with ⟨-, he⟩ | ⟨-, he⟩
    · simp at he
    · simp only [PlayerMove.PlaceWall.injEq, WallPosition.mk.injEq, true_and] at he
      exact Prod.ext_iff.mpr ⟨by omega, by omega⟩

theorem chebRing_mem (origin : PiecePosition) (i : Nat) (hi : 1 ≤ i) (x y : Int) :
    ((x, y) ∈ squareOutline ((origin.x : Int) - (i : Int))
        ((origin.y : Int) - (i : Int)) (2 * i)) ↔
      chebRingXY origin (x, y) = (i : Int) := by
  rw [mem_squareOutline_iff _ _ i hi]
  unfold chebRingXY
  dsimp only
  omega

theorem cheb_le_eight (origin : PiecePosition) (ho : origin.index < 81)
    (s : Int × Int) (hs : inBoundsSlot s) : chebRingXY origin s ≤ 8 := by
  obtain ⟨h1, h2, h3, h4⟩ := hs
  unfold chebRingXY PiecePosition.x PiecePosition.y
  unfold WALL_GRID_WIDTH WALL_GRID_HEIGHT PIECE_GRID_WIDTH PIECE_GRID_HEIGHT at *
  omega

theorem cheb_ge_one (origin : PiecePosition) (s : Int × Int) :
    1 ≤ chebRingXY origin s := by
  unfold chebRingXY
  omega

theorem ring_has_inbounds (origin : PiecePosition) (ho : origin.index < 81)
    (s : Int × Int) (hs : inBoundsSlot s) (j : Nat) (hj : 1 ≤ j)
    (hle : (j : Int) ≤ chebRingXY origin s) :
    ∃ c : Int × Int,
      c ∈ squareOutline ((origin.x : Int) - (j : Int))
        ((origin.y : Int) - (j : Int)) (2 * j) ∧ inBoundsSlot c := by
  refine ⟨(max ((origin.x : Int) - (j : Int)) (min s.1 ((origin.x : Int) + (j : Int) - 1)),
          max ((origin.y : Int) - (j : Int)) (min s.2 ((origin.y : Int) + (j : Int) - 1))),
         ?_, ?_⟩
  · rw [chebRing_mem origin j hj]
    obtain ⟨h1, h2, h3, h4⟩ := hs
    unfold chebRingXY at *
    unfold PiecePosition.x PiecePosition.y at *
    unfold WALL_GRID_WIDTH WALL_GRID_HEIGHT PIECE_GRID_WIDTH PIECE_GRID_HEIGHT at *
    omega
  · obtain ⟨h1, h2, h3, h4⟩ := hs
    unfold inBoundsSlot chebRingXY at *
    unfold PiecePosition.x PiecePosition.y at *
    unfold WALL_GRID_WIDTH WALL_GRID_HEIGHT PIECE_GRID_WIDTH PIECE_GRID_HEIGHT at *
    dsimp only
    omega

theorem wallRings_succ (game : Game) (player : Player) (origin : PiecePosition)
    (i fuel : Nat) :
    wallRings game player origin i (fuel + 1) =
      if (ringWallMoves game player origin i).2 then
        (ringWallMoves game player origin i).1 ++
          wallRings game player origin (i + 1) fuel
      else [] := rfl

theorem wallRings_sound (game : Game) (player : Player) (origin : PiecePosition) :
    ∀ fuel i mv, 1 ≤ i → mv ∈ wallRings game player origin i fuel →
      ∃ xy, inBoundsSlot xy ∧ (i : Int) ≤ chebRingXY origin xy ∧
        mv ∈ wallMovesAt game player xy := by
  intro fuel
  induction fuel with
  | zero => intro i mv hi hm; simp [wallRings] at hm
  | succ fuel ih =>
      intro i mv hi hm
      rw [wallRings_succ] at hm
      by_cases hflag : (ringWallMoves game player origin i).2
      · rw [if_pos hflag] at hm
        rcases List.mem_append.mp hm with hm1 | hm2
        · rw [ringWallMoves_eq] at hm1
          simp only at hm1
          obtain ⟨xy, hxy, hmv⟩ := List.mem_flatMap.mp hm1
          obtain ⟨hout, hbnd⟩ := List.mem_filter.mp hxy
          refine ⟨xy, of_decide_eq_true hbnd, ?_, hmv⟩
          obtain ⟨x, y⟩ := xy
          rw [chebRing_mem origin i hi] at hout
          omega
        · obtain ⟨xy, hb, hc, hmv⟩ := ih (i + 1) mv (by omega) hm2
          refine ⟨xy, hb, ?_, hmv⟩
          push_cast at hc ⊢
          omega
      · rw [if_neg hflag] at hm
        simp at hm

theorem wallRings_nodup (game : Game) (player : Player) (origin : PiecePosition) :
    ∀ fuel i, 1 ≤ i → (wallRings game player origin i fuel).Nodup := by
  intro fuel
  induction fuel with
  | zero => intro i hi; simp [wallRings]
  | succ fuel ih =>
      intro i hi
      rw [wallRings_succ]
      by_cases hflag : (ringWallMoves game player origin i).2
      · rw [if_pos hflag]
        refine List.Nodup.append ?_ (ih (i + 1) (by omega)) ?_
        · rw [ringWallMoves_eq]
          simp only
          rw [List.nodup_flatMap]
          refine ⟨fun xy _ => wallMovesAt_nodup game player xy, ?_⟩
          have hnd : ((squareOutline ((origin.x : Int) - (i : Int))
              ((origin.y : Int) - (i : Int)) (2 * i)).filter
                (fun xy => decide (inBoundsSlot xy))).Nodup :=
            (squareOutline_nodup _ _ i hi).filter _
          refine hnd.imp_of_mem ?_
          intro a b ha hb hne
          simp only [Function.onFun]
          intro mv hmv hmv'
          obtain ⟨-, hba⟩ := List.mem_filter.mp ha
          obtain ⟨-, hbb⟩ := List.mem_filter.mp hb
          exact hne (wallMovesAt_inj game player a b (of_decide_eq_true hba)
            (of_decide_eq_true hbb) mv hmv hmv')
        · intro mv hmv1 hmv2
          rw [ringWallMoves_eq] at hmv1
          simp only at hmv1
          obtain ⟨xy, hxy, hmvA⟩ := List.mem_flatMap.mp hmv1
          obtain ⟨hout, hbnd⟩ := List.mem_filter.mp hxy
          obtain ⟨xy', hb', hc', hmvB⟩ :=
            wallRings_sound game player origin fuel (i + 1) mv (by omega) hmv2
          have hxyeq : xy = xy' := wallMovesAt_inj game player xy xy'
            (of_decide_eq_true hbnd) hb' mv hmvA hmvB
          obtain ⟨x, y⟩ := xy
          rw [chebRing_mem origin i hi] at hout
          rw [← hxyeq] at hc'
          push_cast at hc'
          omega
      · rw [if_neg hflag]
        simp

theorem wallRings_complete (game : Game) (player : Player) (origin : PiecePosition)
    (ho : origin.index < 81) (s : Int × Int) (hs : inBoundsSlot s) (mv : PlayerMove)
    (hmv : mv ∈ wallMovesAt game player s) :
    ∀ (fuel i : Nat), 1 ≤ i → (i : Int) ≤ chebRingXY origin s →
      chebRingXY origin s < (i : Int) + (fuel : Int) →
      mv ∈ wallRings game player origin i fuel := by
  intro fuel
  induction fuel with
  | zero =>
      intro i hi hle hfu
      exfalso
      push_cast at hfu
      omega
  | succ fuel ih =>
      intro i hi hle hfu
      rw [wallRings_succ]
      obtain ⟨c, hcout, hcin⟩ := ring_has_inbounds origin ho s hs i hi hle
      have hflag : (ringWallMoves game player origin i).2 = true := by
        rw [ringWallMoves_eq]
        simp only
        rw [List.any_eq_true]
        exact ⟨c, hcout, decide_eq_true hcin⟩
      rw [if_pos hflag]
      by_cases hceq : chebRingXY origin s = (i : Int)
      · apply List.mem_append_left
        rw [ringWallMoves_eq]
        simp only
        rw [List.mem_flatMap]
        obtain ⟨sx, sy⟩ := s
        refine ⟨(sx, sy), List.mem_filter.mpr ⟨?_, decide_eq_true hs⟩, hmv⟩
        exact (chebRing_mem origin i hi sx sy).mpr hceq
      · apply List.mem_append_right
        apply ih (i + 1) (by omega)
        · push_cast
          omega
        · push_cast at hfu ⊢
          omega

theorem push_eq_append (game : Game) (player : Player) (ms : List PlayerMove)
    (d c : Direction) :
    push_if_move_piece_is_legal game player ms d c =
      ms ++ pushedMoves game player d c := by
  unfold push_if_move_piece_is_legal pushedMoves
  dsimp only
  by_cases h : is_move_piece_legal_with_player_at_position game.board player
      (game.board.player_position player) ⟨d, c⟩
  · rw [if_pos h, if_pos h]
  · rw [if_neg h, if_neg h]
    simp

theorem foldl_push_collision (game : Game) (player : Player) (jd : Direction) :
    ∀ (L : List Direction) (acc : List PlayerMove),
      L.foldl (fun ms c => push_if_move_piece_is_legal game player ms jd c) acc =
        acc ++ L.flatMap (fun c => pushedMoves game player jd c) := by
  intro L
  induction L with
  | nil => intro acc; simp
  | cons c L ih =>
      intro acc
      rw [List.foldl_cons, ih, push_eq_append]
      simp [List.append_assoc]

theorem foldl_push_up (game : Game) (player : Player) :
    ∀ (L : List Direction) (acc : List PlayerMove),
      L.foldl (fun ms d => push_if_move_piece_is_legal game player ms d .Up) acc =
        acc ++ L.flatMap (fun d => pushedMoves game player d .Up) := by
  intro L
  induction L with
  | nil => intro acc; simp
  | cons d L ih =>
      intro acc
      rw [List.foldl_cons, ih, push_eq_append]
      simp [List.append_assoc]

theorem mem_pushedMoves (game : Game) (player : Player) (d c : Direction)
    (mv : PlayerMove) :
    mv ∈ pushedMoves game player d c ↔
      (is_move_piece_legal_with_player_at_position game.board player
          (game.board.player_position player) ⟨d, c⟩ = true ∧
        mv = PlayerMove.MovePiece ⟨d, c⟩) := by
  unfold pushedMoves
  by_cases h : is_move_piece_legal_with_player_at_position game.board player
      (game.board.player_position player) ⟨d, c⟩
  · rw [if_pos h]; simp [h]
  · rw [if_neg h]; simp [h]

theorem orderedPieceMoves_none (game : Game) (player : Player)
    (h : jumpDirection
        (((game.board.player_position player.opponent).x : Int) -
          ((game.board.player_position player).x : Int))
        (((game.board.player_position player.opponent).y : Int) -
          ((game.board.player_position player).y : Int)) = none) :
    orderedPieceMoves game player =
      Direction.iterList.flatMap (fun d => pushedMoves game player d .Up) := by
  unfold orderedPieceMoves
  dsimp only
  rw [h]
  dsimp only
  rw [foldl_push_up]
  simp

theorem orderedPieceMoves_some (game : Game) (player : Player) (jd : Direction)
    (h : jumpDirection
        (((game.board.player_position player.opponent).x : Int) -
          ((game.board.player_position player).x : Int))
        (((game.board.player_position player.opponent).y : Int) -
          ((game.board.player_position player).y : Int)) = some jd) :
    orderedPieceMoves game player =
      Direction.iterList.flatMap (fun c => pushedMoves game player jd c) ++
        (Direction.iterList.filter (fun d => d != jd)).flatMap
          (fun d => pushedMoves game player d .Up) := by
  unfold orderedPieceMoves
  dsimp only
  rw [h]
  dsimp only
  rw [foldl_push_collision, foldl_push_up]
  simp

theorem collision_jumpDirection (board : Board) (pos opp : PiecePosition)
    (d : Direction)
    (hleg : is_move_direction_legal_with_player_at_position board pos d = true)
    (heq : new_position_after_direction_unchecked pos d = opp) :
    jumpDirection ((opp.x : Int) - (pos.x : Int)) ((opp.y : Int) - (pos.y : Int)) =
      some d := by
  have h1 := congrArg PiecePosition.index heq
  cases d with
  | Up =>
      unfold new_position_after_direction_unchecked PiecePosition.make
        Direction.to_offset at h1
      simp only at h1
      simp only [is_move_direction_legal_with_player_at_position, Bool.and_eq_true,
        decide_eq_true_eq] at hleg
      obtain ⟨⟨hb, -⟩, -⟩ := hleg
      have hd : (opp.x : Int) - (pos.x : Int) = 0 ∧
          (opp.y : Int) - (pos.y : Int) = -1 := by
        simp only [PiecePosition.x, PiecePosition.y, PIECE_GRID_WIDTH] at h1 hb ⊢
        omega
      rw [hd.1, hd.2]
      decide
  | Down =>
      unfold new_position_after_direction_unchecked PiecePosition.make
        Direction.to_offset at h1
      simp only at h1
      simp only [is_move_direction_legal_with_player_at_position, Bool.and_eq_true,
        decide_eq_true_eq] at hleg
      obtain ⟨⟨hb, -⟩, -⟩ := hleg
      have hd : (opp.x : Int) - (pos.x : Int) = 0 ∧
          (opp.y : Int) - (pos.y : Int) = 1 := by
        simp only [PiecePosition.x, PiecePosition.y, PIECE_GRID_WIDTH,
          PIECE_GRID_HEIGHT] at h1 hb ⊢
        omega
      rw [hd.1, hd.2]
      decide
  | Left =>
      unfold new_position_after_direction_unchecked PiecePosition.make
        Direction.to_offset at h1
      simp only at h1
      simp only [is_move_direction_legal_with_player_at_position, Bool.and_eq_true,
        decide_eq_true_eq] at hleg
      obtain ⟨⟨hb, -⟩, -⟩ := hleg
      have hd : (opp.x : Int) - (pos.x : Int) = -1 ∧
          (opp.y : Int) - (pos.y : Int) = 0 := by
        simp only [PiecePosition.x, PiecePosition.y, PIECE_GRID_WIDTH] at h1 hb ⊢
        omega
      rw [hd.1, hd.2]
      decide
  | Right =>
      unfold new_position_after_direction_unchecked PiecePosition.make
        Direction.to_offset at h1
      simp only at h1
      simp only [is_move_direction_legal_with_player_at_position, Bool.and_eq_true,
        decide_eq_true_eq] at hleg
      obtain ⟨⟨hb, -⟩, -⟩ := hleg
      have hd : (opp.x : Int) - (pos.x : Int) = 1 ∧
          (opp.y : Int) - (pos.y : Int) = 0 := by
        simp only [PiecePosition.x, PiecePosition.y, PIECE_GRID_WIDTH,
          PIECE_GRID_HEIGHT] at h1 hb ⊢
        omega
      rw [hd.1, hd.2]
      decide

theorem direction_mem_iterList (d : Direction) : d ∈ Direction.iterList := by
  cases d <;> decide

theorem legal_primary (board : Board) (player : Player) (pos : PiecePosition)
    (mp : MovePiece)
    (h : is_move_piece_legal_with_player_at_position board player pos mp = true) :
    is_move_direction_legal_with_player_at_position board pos mp.direction = true := by
  unfold is_move_piece_legal_with_player_at_position at h
  by_cases hp : is_move_direction_legal_with_player_at_position board pos
      mp.direction = true
  · exact hp
  · rw [if_neg hp] at h
    exact absurd h (by simp)

theorem legal_no_collision_any_c (board : Board) (player : Player)
    (pos : PiecePosition) (d c c' : Direction)
    (h : is_move_piece_legal_with_player_at_position board player pos ⟨d, c⟩ = true)
    (hnc : ¬ new_position_after_direction_unchecked pos d =
      board.player_position player.opponent) :
    is_move_piece_legal_with_player_at_position board player pos ⟨d, c'⟩ = true := by
  unfold is_move_piece_legal_with_player_at_position at h ⊢
  dsimp only at h ⊢
  by_cases hp : is_move_direction_legal_with_player_at_position board pos d = true
  · rw [if_pos hp]
    rw [if_neg hnc]
  · rw [if_neg hp] at h
    exact absurd h (by simp)

theorem orderedPieceMoves_coverage (game : Game) (player : Player) (mp : MovePiece)
    (h : is_move_piece_legal_with_player_at_position game.board player
      (game.board.player_position player) mp = true) :
    ∃ c, PlayerMove.MovePiece ⟨mp.direction, c⟩ ∈ orderedPieceMoves game player := by
  obtain ⟨d, c⟩ := mp
  have hprim := legal_primary game.board player (game.board.player_position player)
    ⟨d, c⟩ h
  dsimp only at hprim ⊢
  by_cases hcol : new_position_after_direction_unchecked
      (game.board.player_position player) d =
      game.board.player_position player.opponent
  · have hj := collision_jumpDirection game.board (game.board.player_position player)
      (game.board.player_position player.opponent) d hprim hcol
    refine ⟨c, ?_⟩
    rw [orderedPieceMoves_some game player d hj]
    apply List.mem_append_left
    rw [List.mem_flatMap]
    exact ⟨c, direction_mem_iterList c, (mem_pushedMoves _ _ _ _ _).mpr ⟨h, rfl⟩⟩
  · have hup : is_move_piece_legal_with_player_at_position game.board player
        (game.board.player_position player) ⟨d, .Up⟩ = true :=
      legal_no_collision_any_c game.board player _ d c .Up h hcol
    refine ⟨.Up, ?_⟩
    cases hj : jumpDirection
        (((game.board.player_position player.opponent).x : Int) -
          ((game.board.player_position player).x : Int))
        (((game.board.player_position player.opponent).y : Int) -
          ((game.board.player_position player).y : Int)) with
    | none =>
        rw [orderedPieceMoves_none game player hj]
        rw [List.mem_flatMap]
        exact ⟨d, direction_mem_iterList d, (mem_pushedMoves _ _ _ _ _).mpr ⟨hup, rfl⟩⟩
    | some jd =>
        rw [orderedPieceMoves_some game player jd hj]
        by_cases hdj : d = jd
        · subst hdj
          apply List.mem_append_left
          rw [List.mem_flatMap]
          exact ⟨.Up, direction_mem_iterList _,
            (mem_pushedMoves _ _ _ _ _).mpr ⟨hup, rfl⟩⟩
        · apply List.mem_append_right
          rw [List.mem_flatMap]
          refine ⟨d, ?_, (mem_pushedMoves _ _ _ _ _).mpr ⟨hup, rfl⟩⟩
          rw [List.mem_filter]
          exact ⟨direction_mem_iterList d, by simp [hdj]⟩

theorem orderedPieceMoves_sound (game : Game) (player : Player) (mv : PlayerMove)
    (hm : mv ∈ orderedPieceMoves game player) :
    ∃ mp, mv = PlayerMove.MovePiece mp ∧
      is_move_piece_legal_with_player_at_position game.board player
        (game.board.player_position player) mp = true := by
  cases hj : jumpDirection
      (((game.board.player_position player.opponent).x : Int) -
        ((game.board.player_position player).x : Int))
      (((game.board.player_position player.opponent).y : Int) -
        ((game.board.player_position player).y : Int)) with
  | none =>
      rw [orderedPieceMoves_none game player hj] at hm
      obtain ⟨d, -, hp⟩ := List.mem_flatMap.mp hm
      obtain ⟨hl, rfl⟩ := (mem_pushedMoves _ _ _ _ _).mp hp
      exact ⟨_, rfl, hl⟩
  | some jd =>
      rw [orderedPieceMoves_some game player jd hj] at hm
      rcases List.mem_append.mp hm with hm1 | hm2
      · obtain ⟨c, -, hp⟩ := List.mem_flatMap.mp hm1
        obtain ⟨hl, rfl⟩ := (mem_pushedMoves _ _ _ _ _).mp hp
        exact ⟨_, rfl, hl⟩
      · obtain ⟨d, -, hp⟩ := List.mem_flatMap.mp hm2
        obtain ⟨hl, rfl⟩ := (mem_pushedMoves _ _ _ _ _).mp hp
        exact ⟨_, rfl, hl⟩

theorem pushedMoves_nodup (game : Game) (player : Player) (d c : Direction) :
    (pushedMoves game player d c).Nodup := by
  unfold pushedMoves
  split <;> simp

theorem orderedPieceMoves_nodup (game : Game) (player : Player) :
    (orderedPieceMoves game player).Nodup := by
  have hdisj_up : ∀ (L : List Direction), L.Nodup →
      (L.flatMap (fun d => pushedMoves game player d .Up)).Nodup := by
    intro L hL
    rw [List.nodup_flatMap]
    refine ⟨fun d _ => pushedMoves_nodup game player d .Up, ?_⟩
    refine hL.imp fun {a b} hab => ?_
    intro mv h1 h2
    obtain ⟨-, rfl⟩ := (mem_pushedMoves _ _ _ _ _).mp h1
    obtain ⟨-, he⟩ := (mem_pushedMoves _ _ _ _ _).mp h2
    simp only [PlayerMove.MovePiece.injEq, MovePiece.mk.injEq] at he
    exact hab he.1
  have hcolpart : ∀ jd, (Direction.iterList.flatMap
      (fun c => pushedMoves game player jd c)).Nodup := by
    intro jd
    rw [List.nodup_flatMap]
    refine ⟨fun c _ => pushedMoves_nodup game player jd c, ?_⟩
    have hnd : Direction.iterList.Nodup := by decide
    refine hnd.imp fun {a b} hab => ?_
    intro mv h1 h2
    obtain ⟨-, rfl⟩ := (mem_pushedMoves _ _ _ _ _).mp h1
    obtain ⟨-, he⟩ := (mem_pushedMoves _ _ _ _ _).mp h2
    simp only [PlayerMove.MovePiece.injEq, MovePiece.mk.injEq] at he
    exact hab he.2
  cases hj : jumpDirection
      (((game.board.player_position player.opponent).x : Int) -
        ((game.board.player_position player).x : Int))
      (((game.board.player_position player.opponent).y : Int) -
        ((game.board.player_position player).y : Int)) with
  | none =>
      rw [orderedPieceMoves_none game player hj]
      exact hdisj_up _ (by decide)
  | some jd =>
      rw [orderedPieceMoves_some game player jd hj]
      refine List.Nodup.append (hcolpart jd)
        (hdisj_up _ (List.Nodup.filter _ (by decide))) ?_
      intro mv h1 h2
      obtain ⟨c, -, hp1⟩ := List.mem_flatMap.mp h1
      obtain ⟨d, hdmem, hp2⟩ := List.mem_flatMap.mp h2
      obtain ⟨-, rfl⟩ := (mem_pushedMoves _ _ _ _ _).mp hp1
      obtain ⟨-, he⟩ := (mem_pushedMoves _ _ _ _ _).mp hp2
      simp only [PlayerMove.MovePiece.injEq, MovePiece.mk.injEq] at he
      obtain ⟨hf1, hf2⟩ := List.mem_filter.mp hdmem
      rw [← he.1] at hf2
      simp at hf2

theorem wallRings_entry (game : Game) (player : Player) (origin : PiecePosition)
    (fuel : Nat) (mv : PlayerMove) (hw : mv ∈ wallRings game player origin 1 fuel) :
    ∃ (o : WallOrientation) (wp : WallPosition),
      mv = PlayerMove.PlaceWall o wp ∧
      wp.x < WALL_GRID_WIDTH ∧ wp.y < WALL_GRID_HEIGHT ∧
      game.walls_left player > 0 ∧
      room_for_wall_placement game.board o (wp.x : Int) (wp.y : Int) = true := by
  obtain ⟨xy, hbnd, -, hmvat⟩ :=
    wallRings_sound game player origin fuel 1 mv (by omega) hw
  simp only [inBoundsSlot, WALL_GRID_WIDTH, WALL_GRID_HEIGHT, PIECE_GRID_WIDTH,
    PIECE_GRID_HEIGHT] at hbnd
  obtain ⟨h1, h2, h3, h4⟩ := hbnd
  have hc1 : ((xy.1.toNat : Nat) : Int) = xy.1 := by omega
  have hc2 : ((xy.2.toNat : Nat) : Int) = xy.2 := by omega
  rcases (mem_wallMovesAt _ _ _ _).mp hmvat with
    ⟨⟨hwl, hroom⟩, rfl⟩ | ⟨⟨hwl, hroom⟩, rfl⟩
  · refine ⟨.Horizontal, ⟨xy.1.toNat, xy.2.toNat⟩, rfl, ?_, ?_, hwl, ?_⟩
    · show xy.1.toNat < WALL_GRID_WIDTH
      simp only [WALL_GRID_WIDTH, PIECE_GRID_WIDTH]
      omega
    · show xy.2.toNat < WALL_GRID_HEIGHT
      simp only [WALL_GRID_HEIGHT, PIECE_GRID_HEIGHT]
      omega
    · show room_for_wall_placement game.board WallOrientation.Horizontal
        ((xy.1.toNat : Nat) : Int) ((xy.2.toNat : Nat) : Int) = true
      rw [hc1, hc2]
      exact hroom
  · refine ⟨.Vertical, ⟨xy.1.toNat, xy.2.toNat⟩, rfl, ?_, ?_, hwl, ?_⟩
    · show xy.1.toNat < WALL_GRID_WIDTH
      simp only [WALL_GRID_WIDTH, PIECE_GRID_WIDTH]
      omega
    · show xy.2.toNat < WALL_GRID_HEIGHT
      simp only [WALL_GRID_HEIGHT, PIECE_GRID_HEIGHT]
      omega
    · show room_for_wall_placement game.board WallOrientation.Vertical
        ((xy.1.toNat : Nat) : Int) ((xy.2.toNat : Nat) : Int) = true
      rw [hc1, hc2]
      exact hroom

/-- **C5** (amended).  For every game state whose two pieces lie on the 9×9
grid and every player: every piece-move entry of
`moves_ordered_by_heuristic_quality` is legal, and every wall entry lies in
the 8×8 wall grid, has a wall in hand and passes `room_for_wall_placement`
(the path-sealing part of full wall legality is not checked); for every legal
piece move some entry with the same primary direction appears; every wall
placement with a wall in hand and room appears; and the list contains no
duplicate entries. -/
theorem c5_amended (game : Game) (player : Player)
    (hA : (game.board.player_position Player.A).index < 81)
    (hB : (game.board.player_position Player.B).index < 81) :
    (∀ mv ∈ moves_ordered_by_heuristic_quality game player,
      (∀ mp : MovePiece, mv = PlayerMove.MovePiece mp →
        is_move_piece_legal_with_player_at_position game.board player
          (game.board.player_position player) mp = true) ∧
      (∀ (o : WallOrientation) (wp : WallPosition),
        mv = PlayerMove.PlaceWall o wp →
        wp.x < WALL_GRID_WIDTH ∧ wp.y < WALL_GRID_HEIGHT ∧
        game.walls_left player > 0 ∧
        room_for_wall_placement game.board o (wp.x : Int) (wp.y : Int) = true)) ∧
    (∀ mp : MovePiece,
      is_move_piece_legal_with_player_at_position game.board player
        (game.board.player_position player) mp = true →
      ∃ c, PlayerMove.MovePiece ⟨mp.direction, c⟩ ∈
        moves_ordered_by_heuristic_quality game player) ∧
    (∀ (o : WallOrientation) (wp : WallPosition),
      wp.x < WALL_GRID_WIDTH → wp.y < WALL_GRID_HEIGHT →
      game.walls_left player > 0 →
      room_for_wall_placement game.board o (wp.x : Int) (wp.y : Int) = true →
      PlayerMove.PlaceWall o wp ∈ moves_ordered_by_heuristic_quality game player) ∧
    (moves_ordered_by_heuristic_quality game player).Nodup := by
  have ho : (game.board.player_position player.opponent).index < 81 := by
    cases player
    · exact hB
    · exact hA
  refine ⟨?_, ?_, ?_, ?_⟩
  · intro mv hmv
    unfold moves_ordered_by_heuristic_quality at hmv
    rcases List.mem_append.mp hmv with hp | hw
    · obtain ⟨mp, rfl, hl⟩ := orderedPieceMoves_sound game player mv hp
      constructor
      · intro mp' he
        injection he with he'
        rw [← he']
        exact hl
      · intro o wp he
        exact absurd he (by simp)
    · obtain ⟨o, wp, rfl, hx, hy, hwl, hroom⟩ :=
        wallRings_entry game player _ RING_FUEL mv hw
      constructor
      · intro mp he
        exact absurd he (by simp)
      · intro o' wp' he
        simp only [PlayerMove.PlaceWall.injEq] at he
        obtain ⟨rfl, rfl⟩ := he
        exact ⟨hx, hy, hwl, hroom⟩
  · intro mp hl
    obtain ⟨c, hc⟩ := orderedPieceMoves_coverage game player mp hl
    refine ⟨c, ?_⟩
    unfold moves_ordered_by_heuristic_quality
    exact List.mem_append_left _ hc
  · intro o wp hx hy hwl hroom
    unfold moves_ordered_by_heuristic_quality
    apply List.mem_append_right
    obtain ⟨wx, wy⟩ := wp
    have hx' : wx < WALL_GRID_WIDTH := hx
    have hy' : wy < WALL_GRID_HEIGHT := hy
    have hs : inBoundsSlot ((wx : Int), (wy : Int)) :=
      ⟨Int.natCast_nonneg wx, Int.natCast_nonneg wy,
       by show (wx : Int) < (WALL_GRID_WIDTH : Int); exact_mod_cast hx',
       by show (wy : Int) < (WALL_GRID_HEIGHT : Int); exact_mod_cast hy'⟩
    have hmv : PlayerMove.PlaceWall o ⟨wx, wy⟩ ∈
        wallMovesAt game player ((wx : Int), (wy : Int)) := by
      rw [mem_wallMovesAt]
      cases o
      · exact Or.inl ⟨⟨hwl, hroom⟩, by simp⟩
      · exact Or.inr ⟨⟨hwl, hroom⟩, by simp⟩
    refine wallRings_complete game player _ ho _ hs _ hmv RING_FUEL 1 (by omega)
      ?_ ?_
    · have h1 := cheb_ge_one (game.board.player_position player.opponent)
        ((wx : Int), (wy : Int))
      push_cast
      omega
    · have h8 := cheb_le_eight (game.board.player_position player.opponent) ho
        ((wx : Int), (wy : Int)) hs
      simp only [RING_FUEL]
      push_cast
      omega
  · unfold moves_ordered_by_heuristic_quality
    refine List.Nodup.append (orderedPieceMoves_nodup game player)
      (wallRings_nodup game player _ RING_FUEL 1 (by omega)) ?_
    intro mv h1 h2
    obtain ⟨mp, rfl, -⟩ := orderedPieceMoves_sound game player mv h1
    obtain ⟨o, wp, he, -⟩ := wallRings_entry game player _ RING_FUEL _ h2
    exact absurd he (by simp)

/-- Closed witness for the amended C5: its hypotheses hold at the initial
position, where the theorem applies. -/
theorem c5_amended_witness :
    ((Game.new.board.player_position Player.A).index < 81 ∧
     (Game.new.board.player_position Player.B).index < 81) ∧
    ((∀ mv ∈ moves_ordered_by_heuristic_quality Game.new Player.A,
      (∀ mp : MovePiece, mv = PlayerMove.MovePiece mp →
        is_move_piece_legal_with_player_at_position Game.new.board Player.A
          (Game.new.board.player_position Player.A) mp = true) ∧
      (∀ (o : WallOrientation) (wp : WallPosition),
        mv = PlayerMove.PlaceWall o wp →
        wp.x < WALL_GRID_WIDTH ∧ wp.y < WALL_GRID_HEIGHT ∧
        Game.new.walls_left Player.A > 0 ∧
        room_for_wall_placement Game.new.board o (wp.x : Int) (wp.y : Int) = true)) ∧
    (∀ mp : MovePiece,
      is_move_piece_legal_with_player_at_position Game.new.board Player.A
        (Game.new.board.player_position Player.A) mp = true →
      ∃ c, PlayerMove.MovePiece ⟨mp.direction, c⟩ ∈
        moves_ordered_by_heuristic_quality Game.new Player.A) ∧
    (∀ (o : WallOrientation) (wp : WallPosition),
      wp.x < WALL_GRID_WIDTH → wp.y < WALL_GRID_HEIGHT →
      Game.new.walls_left Player.A > 0 →
      room_for_wall_placement Game.new.board o (wp.x : Int) (wp.y : Int) = true →
      PlayerMove.PlaceWall o wp ∈ moves_ordered_by_heuristic_quality Game.new Player.A) ∧
    (moves_ordered_by_heuristic_quality Game.new Player.A).Nodup) :=
  ⟨⟨by decide, by decide⟩, c5_amended Game.new Player.A (by decide) (by decide)⟩

end Quoridor
